import Mathlib

/-!
# Verification of `src/puzzle.ts`

Shallow embedding of the parser, sorter and printer of the puzzle
repository, together with proofs about the claims of its specification.

The JavaScript value `Item = string | Record<string, Item[]>` is embedded
as `Item.str` / `Item.obj`, where a record is a finite, insertion-ordered
association list of keys to child arrays (JavaScript objects have unique
keys in insertion order; the code only ever reads and writes the first
key, `Object.keys(x)[0]`).

The parser's recursive call on the contents of a parenthesized group is
embedded with an explicit fuel argument so that all definitions are
structurally recursive and evaluate by `rfl`; the public wrapper
`parseInput` supplies fuel that is provably sufficient (the scan consumes
one fuel per character and re-parses group interiors, so a quadratic
bound suffices).

The `TypeError` raised by `lastItem[key] = children` when `lastItem` is a
non-empty string primitive (strict-mode assignment to a non-writable
index property) is embedded as `Except.error ()`.
-/

set_option maxRecDepth 40000

namespace Puzzle

/-- `Item` from the source: a string (leaf) or a record from names to
child arrays. -/
inductive Item where
  | str : String → Item
  | obj : List (String × List Item) → Item
deriving Repr

mutual

/-- Number of constructors of an item; bounds the nesting depth and
serves as fuel for the tree walks below. -/
def itemSize : Item → Nat
  | .str _ => 1
  | .obj kvs => 1 + kvsSize kvs

/-- Size of a record's binding list. -/
def kvsSize : List (String × List Item) → Nat
  | [] => 0
  | (_, cs) :: t => 1 + itemsSize cs + kvsSize t

/-- Size of an item array. -/
def itemsSize : List Item → Nat
  | [] => 0
  | x :: t => itemSize x + itemsSize t

end

/-- The whitespace characters removed by `trim`, modelled as space, tab,
carriage return and line feed. -/
def isWS (c : Char) : Bool :=
  c = ' ' || c = '\t' || c = '\n' || c = '\r'

/-- `buffer.trim()` on the character list of the buffer. -/
def trimC (l : List Char) : List Char :=
  ((l.dropWhile isWS).reverse.dropWhile isWS).reverse

/-- The assignment `lastItem[key] = children` where
`key = Object.keys(lastItem)[0]`: the first binding's value is replaced.
On a record with no keys, `key` is `undefined` and the assignment creates
the string key `"undefined"`; this case never arises in a parse. -/
def setFirstKey : List (String × List Item) → List Item → List (String × List Item)
  | [], children => [("undefined", children)]
  | (k, _) :: t, children => (k, children) :: t

/-- Lines 34–42 of the source: when a closing parenthesis returns the
depth to 0, the freshly parsed `children` are attached to
`items[items.length - 1]` if that element is truthy (replacing the value
of its first key for a record, raising a `TypeError` for a non-empty
string primitive under strict mode), and otherwise (`items` empty, or a
falsy empty-string leaf) the children replace the whole `items` array. -/
def attachChildren (items children : List Item) : Except Unit (List Item) :=
  match items.getLast? with
  | none => .ok children
  | some (.str s) => if s = "" then .ok children else .error ()
  | some (.obj kvs) => .ok (items.dropLast ++ [.obj (setFirstKey kvs children)])

/-- The scanning loop of `parseInput` (lines 13–62 of the source), with an
explicit fuel argument making the nested re-parse of group interiors
structurally recursive.  State: remaining characters, `items`, `buffer`,
`depth`.  Exhausted fuel yields `.error ()`; the wrapper `parseInput`
always supplies sufficient fuel. -/
def parseLoopF : Nat → List Char → List Item → List Char → Int →
    Except Unit (List Item)
  | 0, _, _, _, _ => .error ()
  | _ + 1, [], items, buffer, _ =>
    -- end of input: trim the buffer and push it as a final leaf if non-empty
    let b := trimC buffer
    .ok (if b.isEmpty then items else items ++ [.str (String.mk b)])
  | n + 1, c :: cs, items, buffer, depth =>
    if c = '(' then
      -- trim the buffer; at depth 0 a non-empty buffer opens a named group
      let b := trimC buffer
      if depth = 0 ∧ ¬ b.isEmpty then
        parseLoopF n cs (items ++ [.obj [(String.mk b, [])]]) ['('] (depth + 1)
      else
        parseLoopF n cs items (b ++ ['(']) (depth + 1)
    else if c = ')' then
      let depth' := depth - 1
      let buffer' := buffer ++ [')']
      if depth' = 0 then
        -- a complete top-level group: strip the outer parentheses,
        -- re-parse the interior, and attach the children
        let b := trimC buffer'
        match parseLoopF n ((b.drop 1).dropLast) [] [] 0 with
        | .error e => .error e
        | .ok children =>
          match attachChildren items children with
          | .error e => .error e
          | .ok items' => parseLoopF n cs items' [] depth'
      else
        parseLoopF n cs items buffer' depth'
    else if c = ',' ∧ depth = 0 then
      -- a top-level comma separates siblings
      let b := trimC buffer
      parseLoopF n cs (if b.isEmpty then items else items ++ [.str (String.mk b)])
        [] depth
    else
      parseLoopF n cs items (buffer ++ [c]) depth

/-- Fuel that is always sufficient for `parseLoopF` on the given state. -/
def parseFuel (chars buffer : List Char) : Nat :=
  (chars.length + buffer.length + 2) * (chars.length + buffer.length + 2)
    + chars.length

/-- `parseInput` (lines 8–65 of the source). -/
def parseInput (input : String) : Except Unit (List Item) :=
  parseLoopF (parseFuel input.data []) input.data [] [] 0

/-! ## Sorter -/

/-- `aKey` / `bKey` of the comparator (lines 74–75): a string is its own
key, a record's key is `Object.keys(x)[0]`.  On a record with no keys
that expression is `undefined` and the subsequent `localeCompare` call
would throw; such records never arise in a parse (see `ItemWF`), and the
model assigns them the empty key. -/
def sortKey : Item → String
  | .str s => s
  | .obj [] => ""
  | .obj ((k, _) :: _) => k

/-- Code-point lexicographic order on character lists, modelling the
`localeCompare`-induced order on names (locale-aware collation agrees
with code-point order on the names appearing in this development). -/
def lexLe : List Char → List Char → Bool
  | [], _ => true
  | _ :: _, [] => false
  | a :: as, b :: bs =>
    if a.toNat < b.toNat then true
    else if b.toNat < a.toNat then false
    else lexLe as bs

/-- The comparator `alphabetically` (lines 73–77) as a boolean "is not
greater" relation on items. -/
def itemLe (a b : Item) : Bool :=
  lexLe (sortKey a).data (sortKey b).data

/-- Insert an item into an already processed list, before the first
element it is strictly smaller than or tied with. -/
def insertItem (a : Item) : List Item → List Item
  | [] => [a]
  | b :: t => if itemLe a b then a :: b :: t else b :: insertItem a t

/-- `items.sort(alphabetically)`: `Array.prototype.sort` is stable, and a
stable sort under a consistent comparator has a unique result, realized
here by stable insertion sort (an earlier element is kept before a later
element with an equal key). -/
def sortList : List Item → List Item
  | [] => []
  | x :: xs => insertItem x (sortList xs)

/-- `sortItems` (lines 71–88): sort the array in place, then recurse into
`Object.values(item)[0]` of every record element.  The recursion into
children is fuelled by nesting depth; `sortItems` supplies sufficient
fuel. -/
def sortItemsF : Nat → List Item → List Item
  | 0, items => items
  | n + 1, items =>
    (sortList items).map fun item =>
      match item with
      | .str s => .str s
      | .obj [] => .obj []
      | .obj ((k, cs) :: t) => .obj ((k, sortItemsF n cs) :: t)

/-- The loop body of lines 81–87, named for the proofs below: a string
element is left alone, a record element has the children of its first
key sorted recursively. -/
def sortChild (n : Nat) : Item → Item
  | .str s => .str s
  | .obj [] => .obj []
  | .obj ((k, cs) :: t) => .obj ((k, sortItemsF n cs) :: t)

/-- `sortItems`, as a function from the array value to the value it holds
after the in-place mutation. -/
def sortItems (items : List Item) : List Item :=
  sortItemsF (itemsSize items) items

/-! ## Printer -/

/-- The two-space indentation unit repeated `indent` times
(`'  '.repeat(indent)`, line 98). -/
def indentation : Nat → String
  | 0 => ""
  | n + 1 => "  " ++ indentation n

/-- `printItems` (lines 95–114), as the list of lines written to the
output sink.  A record element contributes the line of its first key
followed by the lines of that key's children one level deeper
(`Object.entries(item)[0]`); a record with no keys would make the
destructuring throw and never arises in a parse (see `ItemWF`). -/
def printItemsF : Nat → List Item → Nat → List String
  | 0, _, _ => []
  | n + 1, items, indent =>
    items.flatMap fun item =>
      match item with
      | .str s => [indentation indent ++ "- " ++ s]
      | .obj [] => []
      | .obj ((k, cs) :: _) =>
        (indentation indent ++ "- " ++ k) :: printItemsF n cs (indent + 1)

/-- `printItems` with its default argument `indent = 0` made explicit. -/
def printItems (items : List Item) (indent : Nat := 0) : List String :=
  printItemsF (itemsSize items) items indent

/-! ## Specification-side notions

Predicates and reference functions used to state the claims; they are
not part of the embedded program. -/

/-- Well-formedness: every record reachable inside an item has exactly
one key.  This is the representation invariant of the values built by
`parseInput` that `sortItems` and `printItems` rely on when they read
`Object.keys(x)[0]` / `Object.values(x)[0]` / `Object.entries(x)[0]`. -/
inductive ItemWF : Item → Prop where
  | str : ∀ s, ItemWF (.str s)
  | obj : ∀ k cs, (∀ x ∈ cs, ItemWF x) → ItemWF (.obj [(k, cs)])

/-- All items of an array are well-formed. -/
def ItemsWF (l : List Item) : Prop := ∀ x ∈ l, ItemWF x

mutual

/-- Total number of items in a tree, counting a node together with the
items of its (first key's) children — the number of lines the printer
is claimed to emit. -/
def itemCount : Item → Nat
  | .str _ => 1
  | .obj [] => 1
  | .obj ((_, cs) :: _) => 1 + itemsCount cs

/-- Total number of items in an array, across all depths. -/
def itemsCount : List Item → Nat
  | [] => 0
  | x :: t => itemCount x + itemsCount t

end

mutual

/-- The printer as described by the specification: for each item in
order, one line of `indent` two-space units, `"- "`, and the item's
name; a node's children follow immediately, one level deeper, before the
next sibling. -/
def printItemSpec : Nat → Item → List String
  | ind, .str s => [indentation ind ++ "- " ++ s]
  | _, .obj [] => []
  | ind, .obj ((k, cs) :: _) =>
    (indentation ind ++ "- " ++ k) :: printItemsSpec (ind + 1) cs

/-- The specification printer on an array of items. -/
def printItemsSpec : Nat → List Item → List String
  | _, [] => []
  | ind, x :: t => printItemSpec ind x ++ printItemsSpec ind t

end

/-- Tokens of the input notation: the three delimiters, and maximal
delimiter-free segments as (edge-trimmed) names.  Two inputs have the
same token stream exactly when they differ only in whitespace adjacent
to delimiters, names or the ends of the input. -/
inductive Tok where
  | lpar
  | rpar
  | comma
  | name : List Char → Tok
deriving DecidableEq, Repr

/-- The name token of a pending segment, if its trimmed text is
non-empty. -/
def flushTok (buf : List Char) : List Tok :=
  match trimC buf with
  | [] => []
  | b => [.name b]

/-- Tokenize the remaining characters given the pending segment text. -/
def tokensAux : List Char → List Char → List Tok
  | [], buf => flushTok buf
  | c :: cs, buf =>
    if c = '(' then flushTok buf ++ .lpar :: tokensAux cs []
    else if c = ')' then flushTok buf ++ .rpar :: tokensAux cs []
    else if c = ',' then flushTok buf ++ .comma :: tokensAux cs []
    else tokensAux cs (buf ++ [c])

/-- The token stream of an input. -/
def tokens (l : List Char) : List Tok := tokensAux l []

/-- Right trim: remove trailing whitespace. -/
def rtrimC (l : List Char) : List Char :=
  (l.reverse.dropWhile isWS).reverse

/-- Parenthesis tracking of a token stream from a given depth, stopping
with `none` at a closing parenthesis on depth 0, otherwise returning the
final depth. -/
def balPrefix : List Tok → Nat → Option Nat
  | [], d => some d
  | .lpar :: t, d => balPrefix t (d + 1)
  | .rpar :: t, d =>
    match d with
    | 0 => none
    | d' + 1 => balPrefix t d'
  | .comma :: t, d => balPrefix t d
  | .name _ :: t, d => balPrefix t d

/-- Parenthesis tracking of a character list from a given depth, stopping
with `none` at a `)` on depth 0, otherwise returning the final depth. -/
def chBalPrefix : List Char → Nat → Option Nat
  | [], d => some d
  | c :: cs, d =>
    if c = '(' then chBalPrefix cs (d + 1)
    else if c = ')' then
      match d with
      | 0 => none
      | d' + 1 => chBalPrefix cs d'
    else chBalPrefix cs d

/-- Parenthesis balance of a token stream starting at a given depth:
no closing parenthesis at depth 0, and depth 0 again at the end. -/
def balAux : List Tok → Nat → Bool
  | [], d => d = 0
  | .lpar :: t, d => balAux t (d + 1)
  | .rpar :: t, d =>
    match d with
    | 0 => false
    | d' + 1 => balAux t d'
  | .comma :: t, d => balAux t d
  | .name _ :: t, d => balAux t d

/-- A balanced token stream: every `(` matched by a later `)`, depth
never negative. -/
def balancedToks (t : List Tok) : Bool := balAux t 0

/-- Net parenthesis depth of a character list (the scanner's final
`depth` value). -/
def chDepth : List Char → Int
  | [] => 0
  | c :: cs => (if c = '(' then 1 else if c = ')' then -1 else 0) + chDepth cs

/-! ## Invariants of the scanning loop -/

/-- Any property of the `items` array that survives the three ways the
loop extends it — pushing a trimmed leaf, pushing a fresh single-key
placeholder, and a successful `attachChildren` — holds for every
successful parse result. -/
theorem parseLoopF_preserves (P : List Item → Prop)
    (hnil : P [])
    (hleaf : ∀ items b, P items → b ≠ [] → P (items ++ [.str (String.mk b)]))
    (hnode : ∀ items k, P items → P (items ++ [.obj [(k, [])]]))
    (hattach : ∀ items children items', P items → P children →
      attachChildren items children = .ok items' → P items') :
    ∀ f cs items buf d l, P items → parseLoopF f cs items buf d = .ok l → P l := by
  intro f
  induction f with
  | zero =>
    intro cs items buf d l _ h
    simp [parseLoopF] at h
  | succ n ih =>
    intro cs items buf d l hP h
    cases cs with
    | nil =>
      simp only [parseLoopF, Except.ok.injEq] at h
      subst h
      split
      · exact hP
      · next hb => exact hleaf _ _ hP (by simpa using hb)
    | cons c cs =>
      simp only [parseLoopF] at h
      split_ifs at h with h1 h2 h3 h4 h5 h6
      · exact ih _ _ _ _ _ (hnode _ _ hP) h
      · exact ih _ _ _ _ _ hP h
      · split at h
        · exact absurd h (by simp)
        · rename_i children hchildren
          split at h
          · exact absurd h (by simp)
          · rename_i items' hitems'
            exact ih _ _ _ _ _
              (hattach _ _ _ hP (ih _ _ _ _ _ hnil hchildren) hitems') h
      · exact ih _ _ _ _ _ hP h
      · exact ih _ _ _ _ _ hP h
      · exact ih _ _ _ _ _ (hleaf _ _ hP (by simpa using h6)) h
      · exact ih _ _ _ _ _ hP h

/-- Inversion for well-formed records: the binding list is a singleton
with well-formed children. -/
theorem ItemWF_obj_elim {kvs : List (String × List Item)}
    (h : ItemWF (.obj kvs)) :
    ∃ k cs, kvs = [(k, cs)] ∧ ∀ x ∈ cs, ItemWF x := by
  cases h with
  | obj k cs hcs => exact ⟨k, cs, rfl, hcs⟩

/-- A successful `attachChildren` preserves well-formedness. -/
theorem attachChildren_WF {items children items' : List Item}
    (hitems : ItemsWF items) (hchildren : ItemsWF children)
    (h : attachChildren items children = .ok items') : ItemsWF items' := by
  unfold attachChildren at h
  split at h
  · injection h with h
    exact h ▸ hchildren
  · split at h
    · injection h with h
      exact h ▸ hchildren
    · simp at h
  · rename_i kvs hlast
    injection h with h
    subst h
    obtain ⟨k, cs, rfl, -⟩ :=
      ItemWF_obj_elim (hitems _ (List.mem_of_mem_getLast? hlast))
    intro x hx
    rcases List.mem_append.mp hx with hx | hx
    · exact hitems _ ((List.dropLast_sublist items).mem hx)
    · simp only [List.mem_singleton] at hx
      subst hx
      exact ItemWF.obj k children hchildren

/-- Membership in an insertion. -/
theorem mem_insertItem {x a : Item} {l : List Item}
    (h : x ∈ insertItem a l) : x = a ∨ x ∈ l := by
  induction l with
  | nil => simpa [insertItem] using h
  | cons b t ih =>
    unfold insertItem at h
    split at h
    · simpa using h
    · rcases List.mem_cons.mp h with h | h
      · exact Or.inr (h ▸ List.mem_cons_self b t)
      · rcases ih h with h | h
        · exact Or.inl h
        · exact Or.inr (List.mem_cons_of_mem b h)

/-- Membership in the sorted array. -/
theorem mem_sortList {x : Item} {l : List Item}
    (h : x ∈ sortList l) : x ∈ l := by
  induction l with
  | nil => simp [sortList] at h
  | cons b t ih =>
    rcases mem_insertItem h with h | h
    · exact h ▸ List.mem_cons_self b t
    · exact List.mem_cons_of_mem b (ih h)

/-- One sorting pass is the insertion sort followed by the recursive
descent into every element. -/
theorem sortItemsF_succ (n : Nat) (items : List Item) :
    sortItemsF (n + 1) items = (sortList items).map (sortChild n) := by
  unfold sortItemsF
  have hfun : (fun item =>
      match item with
      | .str s => .str s
      | .obj [] => .obj []
      | .obj ((k, cs) :: t) => .obj ((k, sortItemsF n cs) :: t)) = sortChild n := by
    funext x
    cases x with
    | str s => rfl
    | obj kvs =>
      cases kvs with
      | nil => rfl
      | cons kv t => cases kv; rfl
  rw [hfun]

/-- The recursive sort preserves well-formedness, whatever the fuel. -/
theorem sortItemsF_WF : ∀ n l, ItemsWF l → ItemsWF (sortItemsF n l) := by
  intro n
  induction n with
  | zero => exact fun l h => h
  | succ n ih =>
    intro l hl y hy
    rw [sortItemsF_succ] at hy
    simp only [List.mem_map] at hy
    obtain ⟨x, hx, rfl⟩ := hy
    have hxWF : ItemWF x := hl _ (mem_sortList hx)
    cases x with
    | str s => exact ItemWF.str s
    | obj kvs =>
      obtain ⟨k, cs, rfl, hcs⟩ := ItemWF_obj_elim hxWF
      exact ItemWF.obj k (sortItemsF n cs) (ih cs hcs)

/-- Trimming keeps a non-whitespace head character. -/
theorem trimC_cons_not_ws (c : Char) (r : List Char) (h : isWS c = false) :
    ∃ r', trimC (c :: r) = c :: r' := by
  unfold trimC
  rw [List.dropWhile_cons_of_neg (by simp [h])]
  rw [List.reverse_cons]
  rw [List.dropWhile_append]
  split
  · rw [List.dropWhile_cons_of_neg (by simp [h])]
    exact ⟨(List.dropWhile isWS []).reverse, by simp⟩
  · exact ⟨(List.dropWhile isWS r.reverse).reverse, by simp⟩

/-- A `(` increments the scanner's net depth. -/
theorem chDepth_lpar (cs : List Char) : chDepth ('(' :: cs) = 1 + chDepth cs := by
  simp [chDepth]

/-- A `)` decrements the scanner's net depth. -/
theorem chDepth_rpar (cs : List Char) : chDepth (')' :: cs) = -1 + chDepth cs := by
  simp [chDepth]

/-- Any other character leaves the net depth unchanged. -/
theorem chDepth_other {c : Char} (cs : List Char) (h1 : ¬ c = '(') (h2 : ¬ c = ')') :
    chDepth (c :: cs) = chDepth cs := by
  simp [chDepth, h1, h2]

/-- While the scan sits at depth ≥ 1, the buffer starts with the `(`
that opened the group; if the input ends there, the buffer — unmatched
parentheses included — is flushed as a final leaf. -/
theorem parseLoopF_unclosed :
    ∀ f cs items buf d l, parseLoopF f cs items buf d = .ok l →
    1 ≤ d + chDepth cs →
    (1 ≤ d → ∃ r, buf = '(' :: r) →
    ∃ nm, l.getLast? = some (.str nm) ∧ '(' ∈ nm.data := by
  intro f
  induction f with
  | zero =>
    intro cs items buf d l h
    simp [parseLoopF] at h
  | succ n ih =>
    intro cs items buf d l h hd hbuf
    cases cs with
    | nil =>
      simp only [chDepth, add_zero] at hd
      obtain ⟨r, rfl⟩ := hbuf hd
      obtain ⟨r', hr'⟩ := trimC_cons_not_ws '(' r (by decide)
      simp only [parseLoopF, hr', List.isEmpty_cons, Bool.false_eq_true,
        if_false, Except.ok.injEq] at h
      subst h
      refine ⟨String.mk ('(' :: r'), ?_, List.mem_cons_self _ _⟩
      rw [List.getLast?_concat]
    | cons c cs =>
      simp only [parseLoopF] at h
      split_ifs at h with h1 h2 h3 h4 h5 h6
      · -- '(' at depth 0 with a pending name: push a placeholder
        subst h1
        rw [chDepth_lpar] at hd
        obtain ⟨hd0, -⟩ := h2
        refine ih _ _ _ _ _ h (by omega) fun _ => ⟨[], rfl⟩
      · -- '(' without a push
        subst h1
        rw [chDepth_lpar] at hd
        refine ih _ _ _ _ _ h (by omega) ?_
        intro hd1
        rcases (by omega : 1 ≤ d ∨ d ≤ 0) with hpos | hnonpos
        · obtain ⟨r, rfl⟩ := hbuf hpos
          obtain ⟨r', hr'⟩ := trimC_cons_not_ws '(' r (by decide)
          exact ⟨r' ++ ['('], by rw [hr']; simp⟩
        · have hd0 : d = 0 := by omega
          have hb : (trimC buf).isEmpty = true := by
            by_contra hne
            exact h2 ⟨hd0, hne⟩
          rw [List.isEmpty_iff.mp hb]
          exact ⟨[], rfl⟩
      · -- ')' closing a top-level group
        subst h3
        rw [chDepth_rpar] at hd
        split at h
        · exact absurd h (by simp)
        · split at h
          · exact absurd h (by simp)
          · exact ih _ _ _ _ _ h (by omega)
              fun hcon => absurd hcon (by omega)
      · -- ')' inside a group
        subst h3
        rw [chDepth_rpar] at hd
        refine ih _ _ _ _ _ h (by omega) ?_
        intro hd1
        obtain ⟨r, rfl⟩ := hbuf (by omega)
        exact ⟨r ++ [')'], by simp⟩
      · -- ',' at depth 0 with an empty buffer
        obtain ⟨rfl, rfl⟩ := h5
        rw [chDepth_other cs h1 h3] at hd
        exact ih _ _ _ _ _ h (by omega) fun hcon => absurd hcon (by omega)
      · -- ',' at depth 0 flushing a leaf
        obtain ⟨rfl, rfl⟩ := h5
        rw [chDepth_other cs h1 h3] at hd
        exact ih _ _ _ _ _ h (by omega) fun hcon => absurd hcon (by omega)
      · -- any other character
        rw [chDepth_other cs h1 h3] at hd
        refine ih _ _ _ _ _ h (by omega) ?_
        intro hd1
        obtain ⟨r, rfl⟩ := hbuf hd1
        exact ⟨r ++ [c], by simp⟩

/-- Every item occupies at least one size unit. -/
theorem itemSize_pos : ∀ x : Item, 1 ≤ itemSize x := by
  intro x
  cases x <;> simp [itemSize]

/-- Unfolding the fuelled printer over a leading leaf. -/
theorem printItemsF_cons_str (n : Nat) (s : String) (t : List Item) (ind : Nat) :
    printItemsF (n + 1) (.str s :: t) ind =
      (indentation ind ++ "- " ++ s) :: printItemsF (n + 1) t ind := by
  simp [printItemsF]

/-- Unfolding the fuelled printer over a leading record. -/
theorem printItemsF_cons_obj (n : Nat) (k : String) (cs : List Item)
    (kvt : List (String × List Item)) (t : List Item) (ind : Nat) :
    printItemsF (n + 1) (.obj ((k, cs) :: kvt) :: t) ind =
      (indentation ind ++ "- " ++ k) ::
        (printItemsF n cs (ind + 1) ++ printItemsF (n + 1) t ind) := by
  simp [printItemsF]

/-- With sufficient fuel, the source printer agrees with the printer
described by the specification on well-formed items. -/
theorem printItemsF_eq_spec :
    ∀ n items ind, itemsSize items ≤ n → ItemsWF items →
    printItemsF n items ind = printItemsSpec ind items := by
  intro n
  induction n with
  | zero =>
    intro items ind hsize hWF
    cases items with
    | nil => rfl
    | cons x t =>
      have := itemSize_pos x
      simp [itemsSize] at hsize
      omega
  | succ n ih =>
    intro items ind hsize hWF
    induction items with
    | nil => rfl
    | cons x t iht =>
      have htail : printItemsF (n + 1) t ind = printItemsSpec ind t :=
        iht (by simp [itemsSize] at hsize ⊢; omega)
          fun y hy => hWF y (List.mem_cons_of_mem x hy)
      obtain hx | ⟨k, cs, kvs, hx, hcs⟩ :
          (∃ s, x = .str s) ∨
          ∃ k cs kvs, x = .obj ((k, cs) :: kvs) ∧ ∀ y ∈ cs, ItemWF y := by
        obtain hWFx := hWF x (List.mem_cons_self x t)
        cases hWFx with
        | str s => exact Or.inl ⟨s, rfl⟩
        | obj k cs hcs => exact Or.inr ⟨k, cs, [], rfl, hcs⟩
      · obtain ⟨s, rfl⟩ := hx
        rw [printItemsF_cons_str, htail]
        rfl
      · subst hx
        rw [printItemsF_cons_obj, htail]
        have hcssize : itemsSize cs ≤ n := by
          simp [itemsSize, itemSize, kvsSize] at hsize
          omega
        simp only [printItemsSpec, printItemSpec]
        rw [ih cs (ind + 1) hcssize hcs]
        rfl

/-- The specification printer emits one line per item across all
depths. -/
theorem printItemsSpec_length :
    ∀ n items ind, itemsSize items ≤ n → ItemsWF items →
    (printItemsSpec ind items).length = itemsCount items := by
  intro n
  induction n with
  | zero =>
    intro items ind hsize hWF
    cases items with
    | nil => rfl
    | cons x t =>
      have := itemSize_pos x
      simp [itemsSize] at hsize
      omega
  | succ n ih =>
    intro items ind hsize hWF
    induction items with
    | nil => rfl
    | cons x t iht =>
      have htail : (printItemsSpec ind t).length = itemsCount t :=
        iht (by simp [itemsSize] at hsize ⊢; omega)
          fun y hy => hWF y (List.mem_cons_of_mem x hy)
      obtain hx | ⟨k, cs, kvs, hx, hcs⟩ :
          (∃ s, x = .str s) ∨
          ∃ k cs kvs, x = .obj ((k, cs) :: kvs) ∧ ∀ y ∈ cs, ItemWF y := by
        obtain hWFx := hWF x (List.mem_cons_self x t)
        cases hWFx with
        | str s => exact Or.inl ⟨s, rfl⟩
        | obj k cs hcs => exact Or.inr ⟨k, cs, [], rfl, hcs⟩
      · obtain ⟨s, rfl⟩ := hx
        simp [printItemsSpec, printItemSpec, itemsCount, itemCount, htail]
        omega
      · subst hx
        have hcssize : itemsSize cs ≤ n := by
          simp [itemsSize, itemSize, kvsSize] at hsize
          omega
        simp [printItemsSpec, printItemSpec, itemsCount, itemCount, htail,
          ih cs (ind + 1) hcssize hcs]
        omega

/-! ## Order lemmas for the comparator -/

/-- Unfolding the lexicographic comparison over leading characters. -/
theorem lexLe_cons (x y : Char) (xs ys : List Char) :
    lexLe (x :: xs) (y :: ys) =
      if x.toNat < y.toNat then true
      else if y.toNat < x.toNat then false
      else lexLe xs ys := rfl

/-- The comparison over leading characters, as a disjunction. -/
theorem lexLe_cons_iff (x y : Char) (xs ys : List Char) :
    lexLe (x :: xs) (y :: ys) = true ↔
      x.toNat < y.toNat ∨ (x.toNat = y.toNat ∧ lexLe xs ys = true) := by
  rw [lexLe_cons]
  split_ifs with h1 h2
  · simp [h1]
  · simp only [Bool.false_eq_true, false_iff]
    push_neg
    exact ⟨by omega, fun h => absurd h (by omega)⟩
  · constructor
    · intro h
      exact Or.inr ⟨by omega, h⟩
    · rintro (h | ⟨-, h⟩)
      · exact absurd h h1
      · exact h

/-- The comparison is reflexive. -/
theorem lexLe_refl : ∀ l, lexLe l l = true := by
  intro l
  induction l with
  | nil => rfl
  | cons x xs ih => exact (lexLe_cons_iff x x xs xs).mpr (Or.inr ⟨rfl, ih⟩)

/-- The comparison is total. -/
theorem lexLe_total : ∀ a b, lexLe a b = true ∨ lexLe b a = true := by
  intro a
  induction a with
  | nil => exact fun _ => Or.inl rfl
  | cons x xs ih =>
    intro b
    cases b with
    | nil => exact Or.inr rfl
    | cons y ys =>
      rcases Nat.lt_trichotomy x.toNat y.toNat with h | h | h
      · exact Or.inl ((lexLe_cons_iff _ _ _ _).mpr (Or.inl h))
      · rcases ih ys with h' | h'
        · exact Or.inl ((lexLe_cons_iff _ _ _ _).mpr (Or.inr ⟨h, h'⟩))
        · exact Or.inr ((lexLe_cons_iff _ _ _ _).mpr (Or.inr ⟨h.symm, h'⟩))
      · exact Or.inr ((lexLe_cons_iff _ _ _ _).mpr (Or.inl h))

/-- The comparison is transitive. -/
theorem lexLe_trans : ∀ a b c, lexLe a b = true → lexLe b c = true →
    lexLe a c = true := by
  intro a
  induction a with
  | nil => intro b c _ _; rfl
  | cons x xs ih =>
    intro b c hab hbc
    cases b with
    | nil => simp [lexLe] at hab
    | cons y ys =>
      cases c with
      | nil => simp [lexLe] at hbc
      | cons z zs =>
        rw [lexLe_cons_iff] at hab hbc ⊢
        rcases hab with hab | ⟨hab, hab'⟩ <;> rcases hbc with hbc | ⟨hbc, hbc'⟩
        · exact Or.inl (by omega)
        · exact Or.inl (by omega)
        · exact Or.inl (by omega)
        · exact Or.inr ⟨by omega, ih ys zs hab' hbc'⟩

/-- The comparator is total on items. -/
theorem itemLe_total (a b : Item) : itemLe a b = true ∨ itemLe b a = true :=
  lexLe_total _ _

/-- The comparator is transitive on items. -/
theorem itemLe_trans (a b c : Item) (h1 : itemLe a b = true)
    (h2 : itemLe b c = true) : itemLe a c = true :=
  lexLe_trans _ _ _ h1 h2

/-! ## The insertion sort -/

/-- Inserting into a sorted list keeps it sorted. -/
theorem insertItem_pairwise (a : Item) (l : List Item)
    (hl : l.Pairwise fun x y => itemLe x y = true) :
    (insertItem a l).Pairwise fun x y => itemLe x y = true := by
  induction l with
  | nil => simp [insertItem]
  | cons b t ih =>
    unfold insertItem
    split
    · rename_i hab
      refine List.Pairwise.cons ?_ hl
      intro y hy
      rcases List.mem_cons.mp hy with rfl | hy
      · exact hab
      · exact itemLe_trans _ _ _ hab (List.rel_of_pairwise_cons hl hy)
    · rename_i hab
      have hba : itemLe b a = true := (itemLe_total a b).resolve_left hab
      refine List.Pairwise.cons ?_ (ih hl.of_cons)
      intro y hy
      rcases mem_insertItem hy with rfl | hy
      · exact hba
      · exact List.rel_of_pairwise_cons hl hy

/-- The insertion sort sorts. -/
theorem sortList_pairwise : ∀ l : List Item,
    (sortList l).Pairwise fun x y => itemLe x y = true := by
  intro l
  induction l with
  | nil => simp [sortList]
  | cons b t ih => exact insertItem_pairwise b (sortList t) ih

/-- Sorting an already sorted list changes nothing — the heart of
idempotence. -/
theorem sortList_eq_self : ∀ l : List Item,
    l.Pairwise (fun x y => itemLe x y = true) → sortList l = l := by
  intro l
  induction l with
  | nil => intro _; rfl
  | cons b t ih =>
    intro hl
    show insertItem b (sortList t) = b :: t
    rw [ih hl.of_cons]
    cases t with
    | nil => rfl
    | cons c u =>
      unfold insertItem
      rw [if_pos (List.rel_of_pairwise_cons hl (List.mem_cons_self c u))]

/-- The descent into children keeps every element's sort key. -/
theorem sortKey_sortChild (n : Nat) (x : Item) :
    sortKey (sortChild n x) = sortKey x := by
  cases x with
  | str s => rfl
  | obj kvs =>
    cases kvs with
    | nil => rfl
    | cons kv t => cases kv; rfl

/-- The descent into children does not change comparisons. -/
theorem itemLe_sortChild (n : Nat) (a b : Item) :
    itemLe (sortChild n a) (sortChild n b) = itemLe a b := by
  unfold itemLe
  rw [sortKey_sortChild, sortKey_sortChild]

/-! ## Sizes are preserved by sorting -/

/-- A member is no bigger than its list. -/
theorem mem_itemSize_le {x : Item} {l : List Item} (h : x ∈ l) :
    itemSize x ≤ itemsSize l := by
  induction l with
  | nil => simp at h
  | cons b t ih =>
    rcases List.mem_cons.mp h with rfl | h
    · show itemSize x ≤ itemSize x + itemsSize t
      omega
    · have hx := ih h
      show itemSize x ≤ itemSize b + itemsSize t
      omega

/-- Insertion adds exactly the size of the new element. -/
theorem itemsSize_insertItem (a : Item) : ∀ l,
    itemsSize (insertItem a l) = itemSize a + itemsSize l := by
  intro l
  induction l with
  | nil => simp [insertItem, itemsSize]
  | cons b t ih =>
    unfold insertItem
    split
    · simp [itemsSize]
    · simp [itemsSize, ih]
      omega


/-- Sorting preserves the total size. -/
theorem itemsSize_sortList : ∀ l, itemsSize (sortList l) = itemsSize l := by
  intro l
  induction l with
  | nil => rfl
  | cons b t ih =>
    show itemsSize (insertItem b (sortList t)) = _
    rw [itemsSize_insertItem, ih]
    rfl

/-- A size-preserving map preserves the total size. -/
theorem itemsSize_map (f : Item → Item) (hf : ∀ x, itemSize (f x) = itemSize x) :
    ∀ l, itemsSize (l.map f) = itemsSize l := by
  intro l
  induction l with
  | nil => rfl
  | cons b t ih => simp [itemsSize, hf, ih]

/-- The recursive sort preserves every size, whatever the fuel. -/
theorem sortItemsF_size : ∀ n,
    (∀ l, itemsSize (sortItemsF n l) = itemsSize l) ∧
    (∀ x, itemSize (sortChild n x) = itemSize x) := by
  intro n
  induction n with
  | zero =>
    refine ⟨fun l => rfl, ?_⟩
    intro x
    cases x with
    | str s => rfl
    | obj kvs =>
      cases kvs with
      | nil => rfl
      | cons kv t => cases kv; rfl
  | succ n ih =>
    have hitems : ∀ l, itemsSize (sortItemsF (n + 1) l) = itemsSize l := by
      intro l
      rw [sortItemsF_succ, itemsSize_map _ ih.2, itemsSize_sortList]
    refine ⟨hitems, ?_⟩
    intro x
    cases x with
    | str s => rfl
    | obj kvs =>
      cases kvs with
      | nil => rfl
      | cons kv t =>
        obtain ⟨k, cs⟩ := kv
        show itemSize (.obj ((k, sortItemsF (n + 1) cs) :: t)) = _
        simp [itemSize, kvsSize, hitems cs]

/-- Sorting twice with sufficient fuel is sorting once. -/
theorem sortItemsF_idem : ∀ n m l, itemsSize l ≤ n → itemsSize l ≤ m →
    sortItemsF n (sortItemsF m l) = sortItemsF m l := by
  intro n
  induction n with
  | zero => intro m l _ _; rfl
  | succ n ih =>
    intro m l hn hm
    cases m with
    | zero =>
      have hnil : l = [] := by
        cases l with
        | nil => rfl
        | cons x t =>
          have := itemSize_pos x
          simp [itemsSize] at hm
          omega
      subst hnil
      rfl
    | succ m =>
      rw [sortItemsF_succ m l, sortItemsF_succ n]
      have hpair : ((sortList l).map (sortChild m)).Pairwise
          (fun x y => itemLe x y = true) := by
        rw [List.pairwise_map]
        refine (sortList_pairwise l).imp ?_
        intro a b hab
        rwa [itemLe_sortChild]
      rw [sortList_eq_self _ hpair, List.map_map]
      refine List.map_congr_left ?_
      intro x hx
      have hsize : itemSize x ≤ itemsSize l := by
        have := mem_itemSize_le (mem_sortList hx)
        omega
      cases x with
      | str s => rfl
      | obj kvs =>
        cases kvs with
        | nil => rfl
        | cons kv t =>
          obtain ⟨k, cs⟩ := kv
          show Item.obj ((k, sortItemsF n (sortItemsF m cs)) :: t) =
            Item.obj ((k, sortItemsF m cs) :: t)
          have hbound : itemsSize cs + 2 ≤ itemsSize l := by
            simp [itemSize, kvsSize] at hsize
            omega
          rw [ih m cs (by omega) (by omega)]

/-! ## Claim theorems -/

/-- **C1**: parsing
`"(id, name, email, type(id, name, customFields(c1, c2, c3)), externalId)"`
yields the five-element top-level sequence `id, name, email,
type(id, name, customFields(c1, c2, c3)), externalId` — the
whole-sequence-replacement fallback fires because the entire input is one
outer parenthesis pair with no preceding name — and `sortItems` reorders
the top level to `email, externalId, id, name, type`, `type`'s children
to `customFields(c1, c2, c3), id, name`, and keeps `customFields`'s
children `c1, c2, c3`. -/
theorem parse_example_sorts_alphabetically :
    parseInput
      "(id, name, email, type(id, name, customFields(c1, c2, c3)), externalId)" =
      .ok [.str "id", .str "name", .str "email",
        .obj [("type", [.str "id", .str "name",
          .obj [("customFields", [.str "c1", .str "c2", .str "c3"])]])],
        .str "externalId"] ∧
    sortItems
      [.str "id", .str "name", .str "email",
        .obj [("type", [.str "id", .str "name",
          .obj [("customFields", [.str "c1", .str "c2", .str "c3"])]])],
        .str "externalId"] =
      [.str "email", .str "externalId", .str "id", .str "name",
        .obj [("type", [.obj [("customFields",
          [.str "c1", .str "c2", .str "c3"])], .str "id", .str "name"])]] :=
  ⟨rfl, rfl⟩

/-- **C4**: parsing `"a, b(c, d), e"` returns exactly
`[Leaf "a", Node "b" [Leaf "c", Leaf "d"], Leaf "e"]`. -/
theorem parse_roundtrip_shape :
    parseInput "a, b(c, d), e" =
      .ok [.str "a", .obj [("b", [.str "c", .str "d"])], .str "e"] := rfl

/-- **C2** (code bug): the claim says `parseInput` terminates without
raising any error on every input, but on `"a,(b)"` the depth-0 close
finds the leaf `"a"` as the last element and the assignment
`lastItem[key] = children` on a string primitive raises a `TypeError`
under strict-mode module semantics, embedded here as `.error ()`. -/
theorem parse_throws_on_group_after_leaf :
    parseInput "a,(b)" = .error () := rfl

/-- **C3** (counterexample): for the input `"a,(b)"` the closing
parenthesis returns the depth to 0 and no Node placeholder exists in the
result sequence `[Leaf "a"]`, yet the parse does not replace the sequence
with the children `[Leaf "b"]` — it raises a `TypeError` instead, because
the code tests the truthiness of the last element rather than searching
for a placeholder. -/
theorem replacement_without_node_cex :
    parseInput "a,(b)" = .error () ∧
    (Except.error () : Except Unit (List Item)) ≠ .ok [.str "b"] :=
  ⟨rfl, by simp⟩

/-- **C3** (amended): the whole-sequence replacement fires exactly when
the result sequence built so far is empty (the falsy-last-element test of
line 35); with a non-empty sequence the children are attached to the last
element instead, whatever it is.  In particular an input consisting of a
single outer parenthesis pair, such as `"(a, b)"`, parses to the
recursively parsed contents. -/
theorem replacement_when_sequence_empty :
    (∀ children : List Item, attachChildren [] children = .ok children) ∧
    parseInput "(a, b)" = .ok [.str "a", .str "b"] :=
  ⟨fun _ => rfl, rfl⟩

/-- **C8**: every record built by `parseInput` has exactly one key — its
name mapped to its children (`ItemWF`) — and `sortItems` preserves this
single-key representation (`printItems` takes the structure apart without
rebuilding records, so there is nothing for it to break). -/
theorem parse_builds_single_key_records :
    (∀ s l, parseInput s = .ok l → ItemsWF l) ∧
    (∀ l, ItemsWF l → ItemsWF (sortItems l)) := by
  constructor
  · intro s l h
    refine parseLoopF_preserves ItemsWF ?_ ?_ ?_ ?_ _ _ _ _ _ _ ?_ h
    · intro x hx
      simp at hx
    · intro items b hP _ x hx
      rcases List.mem_append.mp hx with hx | hx
      · exact hP _ hx
      · simp only [List.mem_singleton] at hx
        exact hx ▸ ItemWF.str _
    · intro items k hP x hx
      rcases List.mem_append.mp hx with hx | hx
      · exact hP _ hx
      · simp only [List.mem_singleton] at hx
        exact hx ▸ ItemWF.obj k [] (by intro y hy; simp at hy)
    · exact fun items children items' hP hC hA => attachChildren_WF hP hC hA
    · intro x hx
      simp at hx
  · exact fun l h => sortItemsF_WF _ l h

/-- **C8** (witness): the invariant at concrete inputs. -/
theorem parse_builds_single_key_records_witness :
    ItemsWF [Item.obj [("a", [Item.str "b"])]] ∧
    ItemsWF (sortItems [Item.str "x"]) :=
  ⟨parse_builds_single_key_records.1 "a(b)" _ rfl,
    parse_builds_single_key_records.2 [Item.str "x"]
      (by intro x hx; simp only [List.mem_singleton] at hx; exact hx ▸ ItemWF.str _)⟩

/-- **C9**: at a depth-0 close, `parseInput` attaches the recursively
parsed children to the last element of the result sequence regardless of
its kind — replacing the first key's value when it is a record, raising a
`TypeError` (modelled as `.error ()`) when it is a non-empty string leaf,
as for the input `"a,(b)"` — and the whole-sequence replacement happens
exactly when no last element exists; an empty-string leaf (the only other
falsy possibility) never occurs in a parse result. -/
theorem attach_regardless_of_last_kind :
    (∀ items children kvs, items.getLast? = some (.obj kvs) →
      attachChildren items children =
        .ok (items.dropLast ++ [.obj (setFirstKey kvs children)])) ∧
    (∀ items children s, items.getLast? = some (.str s) → s ≠ "" →
      attachChildren items children = .error ()) ∧
    (∀ items children, items.getLast? = none →
      attachChildren items children = .ok children) ∧
    parseInput "a,(b)" = .error () ∧
    (∀ s l, parseInput s = .ok l → ∀ x ∈ l, x ≠ .str "") := by
  refine ⟨?_, ?_, ?_, rfl, ?_⟩
  · intro items children kvs hlast
    unfold attachChildren
    rw [hlast]
  · intro items children s hlast hs
    unfold attachChildren
    rw [hlast]
    simp [hs]
  · intro items children hlast
    unfold attachChildren
    rw [hlast]
  · intro s l h
    refine parseLoopF_preserves (fun l => ∀ x ∈ l, x ≠ .str "") ?_ ?_ ?_ ?_
      _ _ _ _ _ _ ?_ h
    · intro x hx
      simp at hx
    · intro items b hP hb x hx
      rcases List.mem_append.mp hx with hx | hx
      · exact hP _ hx
      · simp only [List.mem_singleton] at hx
        subst hx
        intro hc
        injection hc with hc
        exact hb (congrArg String.data hc)
    · intro items k hP x hx
      rcases List.mem_append.mp hx with hx | hx
      · exact hP _ hx
      · simp only [List.mem_singleton] at hx
        subst hx
        simp
    · intro items children items' hP hC hA
      unfold attachChildren at hA
      split at hA
      · injection hA with hA
        exact hA ▸ hC
      · split at hA
        · injection hA with hA
          exact hA ▸ hC
        · simp at hA
      · injection hA with hA
        subst hA
        intro x hx
        rcases List.mem_append.mp hx with hx | hx
        · exact hP _ ((List.dropLast_sublist items).mem hx)
        · simp only [List.mem_singleton] at hx
          subst hx
          simp
    · intro x hx
      simp at hx

/-- **C9** (witness): the branch behaviour at concrete states. -/
theorem attach_regardless_of_last_kind_witness :
    attachChildren [Item.obj [("a", [])]] [Item.str "b"] =
      .ok [Item.obj [("a", [Item.str "b"])]] ∧
    attachChildren [Item.str "a"] [Item.str "b"] = .error () ∧
    attachChildren [] [Item.str "b"] = .ok [Item.str "b"] ∧
    (∀ x ∈ [Item.str "a"], x ≠ .str "") :=
  ⟨attach_regardless_of_last_kind.1 [Item.obj [("a", [])]] [Item.str "b"]
      [("a", [])] rfl,
    attach_regardless_of_last_kind.2.1 [Item.str "a"] [Item.str "b"] "a" rfl
      (by simp),
    attach_regardless_of_last_kind.2.2.1 [] [Item.str "b"] rfl,
    attach_regardless_of_last_kind.2.2.2.2 "a" [Item.str "a"] rfl⟩

/-- **C10** (counterexample): for the input `"a(b)("` the scan ends at
depth 1, yet the most recently emitted Node placeholder `a` does not have
an empty children sequence — its group was closed and filled with
`[Leaf "b"]` before the unmatched `(`; only the final-leaf part of the
claim holds (`"("` is emitted as a trailing leaf). -/
theorem unbalanced_most_recent_node_cex :
    parseInput "a(b)(" = .ok [.obj [("a", [.str "b"])], .str "("] ∧
    Item.obj [("a", [Item.str "b"])] ≠ Item.obj [("a", [])] :=
  ⟨rfl, by simp⟩

/-- **C10** (amended): for every input whose scan ends at depth greater
than 0 and whose parse succeeds, the remaining buffer — which still
contains the unmatched `(` characters — is emitted as a final Leaf whose
name includes a parenthesis character.  (A Node placeholder emitted
before the last unmatched `(` may meanwhile have received children, as
the counterexample shows.) -/
theorem unbalanced_leftover_leaf :
    ∀ s l, parseInput s = .ok l → 1 ≤ chDepth s.data →
    ∃ nm, l.getLast? = some (.str nm) ∧ '(' ∈ nm.data := by
  intro s l h hd
  exact parseLoopF_unclosed _ _ _ _ _ _ h (by simpa using hd)
    fun hcon => absurd hcon (by omega)

/-- **C10** (witness): the input `"a(b"` ends at depth 1 and its parse
ends with the leaf `"(b"`. -/
theorem unbalanced_leftover_leaf_witness :
    ∃ nm, [Item.obj [("a", [])], Item.str "(b"].getLast? =
      some (Item.str nm) ∧ '(' ∈ nm.data :=
  unbalanced_leftover_leaf "a(b" _ rfl (by decide)

/-- The indentation unit is two spaces, so a line at nesting depth `n`
starts with `2 * n` spaces. -/
theorem indentation_replicate :
    ∀ n, indentation n = String.mk (List.replicate (2 * n) ' ') := by
  intro n
  induction n with
  | zero => rfl
  | succ n ih =>
    have h2 : 2 * (n + 1) = 2 * n + 1 + 1 := by ring
    rw [indentation, ih, h2, List.replicate_succ, List.replicate_succ]
    rfl

/-- **C7**: `printItems` emits exactly one line per item across all
depths — leaf or node alike — and each line is the two-space unit
repeated `depth` times, then `"- "`, then the item's name; a node's
children are printed immediately after its own line, one level deeper,
before the next sibling (`printItemsSpec` is that specification,
`itemsCount` the total number of items). -/
theorem printItems_one_line_per_item :
    (∀ items indent, ItemsWF items →
      printItems items indent = printItemsSpec indent items) ∧
    (∀ items indent, ItemsWF items →
      (printItems items indent).length = itemsCount items) ∧
    (∀ n, indentation n = String.mk (List.replicate (2 * n) ' ')) := by
  refine ⟨?_, ?_, indentation_replicate⟩
  · intro items indent hWF
    exact printItemsF_eq_spec _ items indent le_rfl hWF
  · intro items indent hWF
    rw [printItems, printItemsF_eq_spec _ items indent le_rfl hWF]
    exact printItemsSpec_length (itemsSize items) items indent le_rfl hWF

/-- **C7** (witness): the printer equations at a concrete forest. -/
theorem printItems_one_line_per_item_witness :
    printItems [Item.str "a", Item.obj [("b", [Item.str "c"])]] 0 =
      printItemsSpec 0 [Item.str "a", Item.obj [("b", [Item.str "c"])]] ∧
    (printItems [Item.str "a", Item.obj [("b", [Item.str "c"])]] 0).length =
      itemsCount [Item.str "a", Item.obj [("b", [Item.str "c"])]] := by
  have hWF : ItemsWF [Item.str "a", Item.obj [("b", [Item.str "c"])]] := by
    intro x hx
    simp only [List.mem_cons, List.not_mem_nil, or_false] at hx
    rcases hx with rfl | rfl
    · exact ItemWF.str _
    · refine ItemWF.obj _ _ ?_
      intro y hy
      simp only [List.mem_singleton] at hy
      exact hy ▸ ItemWF.str _
  exact ⟨printItems_one_line_per_item.1 _ 0 hWF,
    printItems_one_line_per_item.2.1 _ 0 hWF⟩

/-- **C6**: `sortItems` is idempotent — applied to any (well-formed)
item sequence twice in succession, the second pass leaves the sequence,
including every nested children sequence, exactly as the first pass left
it.  (`Array.prototype.sort` is stable, so a pass over an already sorted
sequence moves nothing.) -/
theorem sortItems_idempotent :
    ∀ items, ItemsWF items → sortItems (sortItems items) = sortItems items := by
  intro items _
  show sortItemsF (itemsSize (sortItemsF (itemsSize items) items)) _ = _
  rw [(sortItemsF_size (itemsSize items)).1 items]
  exact sortItemsF_idem _ _ _ le_rfl le_rfl

/-- **C6** (witness): idempotence at a concrete nested sequence. -/
theorem sortItems_idempotent_witness :
    sortItems (sortItems
      [Item.obj [("b", [Item.str "z", Item.str "a"])], Item.str "a"]) =
    sortItems [Item.obj [("b", [Item.str "z", Item.str "a"])], Item.str "a"] := by
  refine sortItems_idempotent _ ?_
  intro x hx
  simp only [List.mem_cons, List.not_mem_nil, or_false] at hx
  rcases hx with rfl | rfl
  · refine ItemWF.obj _ _ ?_
    intro y hy
    simp only [List.mem_cons, List.not_mem_nil, or_false] at hy
    rcases hy with rfl | rfl <;> exact ItemWF.str _
  · exact ItemWF.str _

/-! ## Trimming and whitespace -/

/-- Whitespace characters are not delimiters. -/
theorem ws_not_delim {c : Char} (h : isWS c = true) :
    ¬ c = '(' ∧ ¬ c = ')' ∧ ¬ c = ',' := by
  simp only [isWS, Bool.or_eq_true, decide_eq_true_eq] at h
  rcases h with ((h | h) | h) | h <;> subst h <;>
    exact ⟨by decide, by decide, by decide⟩

/-- Trimming never lengthens a list. -/
theorem trimC_length_le (l : List Char) : (trimC l).length ≤ l.length := by
  unfold trimC
  calc ((l.dropWhile isWS).reverse.dropWhile isWS).reverse.length
      = ((l.dropWhile isWS).reverse.dropWhile isWS).length := by
        rw [List.length_reverse]
    _ ≤ (l.dropWhile isWS).reverse.length :=
        ((l.dropWhile isWS).reverse.dropWhile_sublist isWS).length_le
    _ = (l.dropWhile isWS).length := by rw [List.length_reverse]
    _ ≤ l.length := (l.dropWhile_sublist isWS).length_le

/-- Left-then-right trimming. -/
theorem trimC_eq_rtrimC (l : List Char) :
    trimC l = rtrimC (l.dropWhile isWS) := rfl

/-- Right trim keeps a non-whitespace head. -/
theorem rtrimC_cons_not_ws {c : Char} (l : List Char) (h : isWS c = false) :
    rtrimC (c :: l) = c :: rtrimC l := by
  unfold rtrimC
  rw [List.reverse_cons, List.dropWhile_append]
  split
  · rename_i hemp
    rw [List.isEmpty_iff] at hemp
    rw [List.dropWhile_cons_of_neg (by simp [h]), hemp]
    rfl
  · simp

/-- Right trim swallows a trailing whitespace character. -/
theorem rtrimC_concat_ws {c : Char} (l : List Char) (h : isWS c = true) :
    rtrimC (l ++ [c]) = rtrimC l := by
  unfold rtrimC
  rw [List.reverse_append, List.reverse_singleton, List.singleton_append,
    List.dropWhile_cons_of_pos h]

/-- Right trim keeps a non-whitespace last character, and with it
everything before it. -/
theorem rtrimC_concat_not_ws {c : Char} (l : List Char) (h : isWS c = false) :
    rtrimC (l ++ [c]) = l ++ [c] := by
  unfold rtrimC
  rw [List.reverse_append, List.reverse_singleton, List.singleton_append,
    List.dropWhile_cons_of_neg (by simp [h])]
  simp

/-- Trimming a buffer that starts with `(`. -/
theorem trimC_lparen_cons (raw : List Char) :
    trimC ('(' :: raw) = '(' :: rtrimC raw := by
  rw [trimC_eq_rtrimC, List.dropWhile_cons_of_neg (by decide)]
  exact rtrimC_cons_not_ws raw (by decide)

/-- A completed group `(...)` is already trimmed. -/
theorem trimC_group (raw : List Char) :
    trimC (('(' :: raw) ++ [')']) = ('(' :: raw) ++ [')'] := by
  rw [trimC_eq_rtrimC]
  have h : ('(' :: raw) ++ [')'] = '(' :: (raw ++ [')']) := rfl
  rw [h, List.dropWhile_cons_of_neg (show ¬ isWS '(' = true by decide), ← h]
  exact rtrimC_concat_not_ws _ (by decide)

/-- A trailing whitespace character does not change the trimmed text. -/
theorem trimC_concat_ws {c : Char} (b : List Char) (h : isWS c = true) :
    trimC (b ++ [c]) = trimC b := by
  rw [trimC_eq_rtrimC, trimC_eq_rtrimC, List.dropWhile_append]
  split
  · rename_i hemp
    rw [List.isEmpty_iff] at hemp
    rw [hemp, List.dropWhile_cons_of_pos h]
    rfl
  · exact rtrimC_concat_ws _ h

/-- Every list is its right trim followed by whitespace. -/
theorem rtrimC_decomp (l : List Char) :
    ∃ w, l = rtrimC l ++ w ∧ ∀ c ∈ w, isWS c = true := by
  refine ⟨(l.reverse.takeWhile isWS).reverse, ?_, ?_⟩
  · have h := congrArg List.reverse
      (List.takeWhile_append_dropWhile (p := isWS) (l := l.reverse))
    rw [List.reverse_append, List.reverse_reverse] at h
    unfold rtrimC
    exact h.symm
  · intro c hc
    rw [List.mem_reverse] at hc
    exact List.mem_takeWhile_imp hc

/-! ## Token streams -/

/-- A flush is empty or a single name token. -/
theorem flushTok_cases (b : List Char) :
    (trimC b = [] ∧ flushTok b = []) ∨
      (trimC b ≠ [] ∧ flushTok b = [.name (trimC b)]) := by
  unfold flushTok
  cases htb : trimC b with
  | nil => exact Or.inl ⟨rfl, rfl⟩
  | cons x xs => exact Or.inr ⟨by simp, rfl⟩

/-- A trailing whitespace character does not change the flushed token. -/
theorem flushTok_concat_ws {c : Char} (b : List Char) (h : isWS c = true) :
    flushTok (b ++ [c]) = flushTok b := by
  unfold flushTok
  rw [trimC_concat_ws b h]

/-- Tokenizing from an opening parenthesis. -/
theorem tokensAux_lpar (cs b : List Char) :
    tokensAux ('(' :: cs) b = flushTok b ++ .lpar :: tokensAux cs [] := by
  simp [tokensAux]

/-- Tokenizing from a closing parenthesis. -/
theorem tokensAux_rpar (cs b : List Char) :
    tokensAux (')' :: cs) b = flushTok b ++ .rpar :: tokensAux cs [] := by
  simp [tokensAux]

/-- Tokenizing from a comma. -/
theorem tokensAux_comma (cs b : List Char) :
    tokensAux (',' :: cs) b = flushTok b ++ .comma :: tokensAux cs [] := by
  simp [tokensAux]

/-- Tokenizing from a name character. -/
theorem tokensAux_other {c : Char} (cs b : List Char)
    (h1 : ¬ c = '(') (h2 : ¬ c = ')') (h3 : ¬ c = ',') :
    tokensAux (c :: cs) b = tokensAux cs (b ++ [c]) := by
  simp [tokensAux, h1, h2, h3]

/-- The token stream splits at a closing parenthesis. -/
theorem tokensAux_split_rpar :
    ∀ A b B, tokensAux (A ++ ')' :: B) b =
      tokensAux A b ++ .rpar :: tokensAux B [] := by
  intro A
  induction A with
  | nil => intro b B; rw [List.nil_append, tokensAux_rpar]; rfl
  | cons a A ih =>
    intro b B
    by_cases ha1 : a = '('
    · subst ha1
      rw [List.cons_append, tokensAux_lpar, tokensAux_lpar, ih, List.append_assoc]
      rfl
    · by_cases ha2 : a = ')'
      · subst ha2
        rw [List.cons_append, tokensAux_rpar, tokensAux_rpar, ih, List.append_assoc]
        rfl
      · by_cases ha3 : a = ','
        · subst ha3
          rw [List.cons_append, tokensAux_comma, tokensAux_comma, ih,
            List.append_assoc]
          rfl
        · rw [List.cons_append, tokensAux_other _ _ ha1 ha2 ha3,
            tokensAux_other _ _ ha1 ha2 ha3, ih]

/-- Whitespace in front of an opening parenthesis does not change the
token stream. -/
theorem tokensAux_ws_before_lpar :
    ∀ w X b, (∀ c ∈ w, isWS c = true) →
      tokensAux (w ++ '(' :: X) b = tokensAux ('(' :: X) b := by
  intro w
  induction w with
  | nil => intro X b _; rfl
  | cons wc w ih =>
    intro X b hws
    have hwc := hws wc (List.mem_cons_self wc w)
    obtain ⟨h1, h2, h3⟩ := ws_not_delim hwc
    rw [List.cons_append, tokensAux_other _ _ h1 h2 h3,
      ih X (b ++ [wc]) fun c hc => hws c (List.mem_cons_of_mem wc hc),
      tokensAux_lpar, tokensAux_lpar, flushTok_concat_ws b hwc]

/-- Whitespace in front of an opening parenthesis, under any prefix. -/
theorem tokensAux_ws_mid :
    ∀ P b w X, (∀ c ∈ w, isWS c = true) →
      tokensAux (P ++ (w ++ '(' :: X)) b = tokensAux (P ++ '(' :: X) b := by
  intro P
  induction P with
  | nil =>
    intro b w X hws
    exact tokensAux_ws_before_lpar w X b hws
  | cons p P ih =>
    intro b w X hws
    by_cases hp1 : p = '('
    · subst hp1
      rw [List.cons_append, List.cons_append, tokensAux_lpar, tokensAux_lpar,
        ih [] w X hws]
    · by_cases hp2 : p = ')'
      · subst hp2
        rw [List.cons_append, List.cons_append, tokensAux_rpar, tokensAux_rpar,
          ih [] w X hws]
      · by_cases hp3 : p = ','
        · subst hp3
          rw [List.cons_append, List.cons_append, tokensAux_comma,
            tokensAux_comma, ih [] w X hws]
        · rw [List.cons_append, List.cons_append,
            tokensAux_other _ _ hp1 hp2 hp3, tokensAux_other _ _ hp1 hp2 hp3,
            ih (b ++ [p]) w X hws]

/-! ## Balance bookkeeping -/

/-- Name tokens do not affect the depth tracking. -/
theorem balPrefix_flush (b : List Char) (t : List Tok) (d : Nat) :
    balPrefix (flushTok b ++ t) d = balPrefix t d := by
  rcases flushTok_cases b with ⟨-, h⟩ | ⟨-, h⟩ <;> rw [h] <;> rfl

/-- Name tokens do not affect balance. -/
theorem balAux_flush (b : List Char) (t : List Tok) (d : Nat) :
    balAux (flushTok b ++ t) d = balAux t d := by
  rcases flushTok_cases b with ⟨-, h⟩ | ⟨-, h⟩ <;> rw [h] <;> rfl

/-- Depth tracking of the token stream is depth tracking of the
characters. -/
theorem balPrefix_tokensAux :
    ∀ l b d, balPrefix (tokensAux l b) d = chBalPrefix l d := by
  intro l
  induction l with
  | nil =>
    intro b d
    show balPrefix (flushTok b) d = some d
    rcases flushTok_cases b with ⟨-, h⟩ | ⟨-, h⟩ <;> rw [h] <;> rfl
  | cons c cs ih =>
    intro b d
    by_cases h1 : c = '('
    · subst h1
      rw [tokensAux_lpar, balPrefix_flush]
      show balPrefix (.lpar :: tokensAux cs []) d = chBalPrefix ('(' :: cs) d
      simp only [balPrefix, chBalPrefix, if_pos rfl]
      exact ih [] (d + 1)
    · by_cases h2 : c = ')'
      · subst h2
        rw [tokensAux_rpar, balPrefix_flush]
        show balPrefix (.rpar :: tokensAux cs []) d = chBalPrefix (')' :: cs) d
        simp only [balPrefix, chBalPrefix, if_neg (by decide : ¬ (')' = '(')),
          if_pos rfl]
        cases d with
        | zero => rfl
        | succ d => exact ih [] d
      · by_cases h3 : c = ','
        · subst h3
          rw [tokensAux_comma, balPrefix_flush]
          show balPrefix (.comma :: tokensAux cs []) d = chBalPrefix (',' :: cs) d
          simp only [balPrefix, chBalPrefix, if_neg (by decide : ¬ (',' = '(')),
            if_neg (by decide : ¬ (',' = ')'))]
          exact ih [] d
        · rw [tokensAux_other _ _ h1 h2 h3, ih]
          simp [chBalPrefix, h1, h2, h3]

/-- Depth tracking started higher stays higher. -/
theorem balPrefix_mono :
    ∀ (A : List Tok) (d e k : Nat), balPrefix A d = some e →
      balPrefix A (d + k) = some (e + k) := by
  intro A
  induction A with
  | nil =>
    intro d e k h
    injection h with h
    subst h
    rfl
  | cons a A ih =>
    intro d e k h
    cases a with
    | lpar =>
      show balPrefix A (d + k + 1) = _
      have hc : d + k + 1 = (d + 1) + k := by omega
      rw [hc]
      exact ih (d + 1) e k h
    | rpar =>
      cases d with
      | zero => exact absurd h (by simp [balPrefix])
      | succ d =>
        show balPrefix (.rpar :: A) (d + 1 + k) = _
        have hc : d + 1 + k = (d + k) + 1 := by omega
        rw [hc]
        exact ih d e k h
    | comma => exact ih d e k h
    | name n => exact ih d e k h

/-- Depth tracking across an append. -/
theorem balPrefix_append_some :
    ∀ (A : List Tok) (B : List Tok) (d e : Nat), balPrefix A d = some e →
      balPrefix (A ++ B) d = balPrefix B e := by
  intro A
  induction A with
  | nil =>
    intro B d e h
    injection h with h
    subst h
    rfl
  | cons a A ih =>
    intro B d e h
    cases a with
    | lpar => exact ih B (d + 1) e h
    | rpar =>
      cases d with
      | zero => exact absurd h (by simp [balPrefix])
      | succ d => exact ih B d e h
    | comma => exact ih B d e h
    | name n => exact ih B d e h

/-- Balance across an append whose prefix tracks to a known depth. -/
theorem balAux_append_of_balPrefix :
    ∀ (A : List Tok) (B : List Tok) (d e : Nat), balPrefix A d = some e →
      balAux (A ++ B) d = balAux B e := by
  intro A
  induction A with
  | nil =>
    intro B d e h
    injection h with h
    subst h
    rfl
  | cons a A ih =>
    intro B d e h
    cases a with
    | lpar => exact ih B (d + 1) e h
    | rpar =>
      cases d with
      | zero => exact absurd h (by simp [balPrefix])
      | succ d => exact ih B d e h
    | comma => exact ih B d e h
    | name n => exact ih B d e h

/-- Balance is depth tracking down to zero. -/
theorem balAux_iff_balPrefix :
    ∀ (t : List Tok) (d : Nat), balAux t d = true ↔ balPrefix t d = some 0 := by
  intro t
  induction t with
  | nil =>
    intro d
    constructor
    · intro h
      simp only [balAux, decide_eq_true_eq] at h
      simp [balPrefix, h]
    · intro h
      injection h with h
      simp [balAux, h]
  | cons a t ih =>
    intro d
    cases a with
    | lpar => exact ih (d + 1)
    | rpar =>
      cases d with
      | zero =>
        constructor
        · intro h; simp [balAux] at h
        · intro h; simp [balPrefix] at h
      | succ d => exact ih d
    | comma => exact ih d
    | name n => exact ih d

/-- Character-level depth tracking across an append. -/
theorem chBalPrefix_append_some :
    ∀ (A B : List Char) (d e : Nat), chBalPrefix A d = some e →
      chBalPrefix (A ++ B) d = chBalPrefix B e := by
  intro A
  induction A with
  | nil =>
    intro B d e h
    injection h with h
    subst h
    rfl
  | cons c A ih =>
    intro B d e h
    by_cases h1 : c = '('
    · subst h1
      simp only [chBalPrefix, if_pos rfl] at h ⊢
      exact ih B (d + 1) e h
    · by_cases h2 : c = ')'
      · subst h2
        simp only [chBalPrefix, if_neg (by decide : ¬ (')' = '(')),
          if_pos rfl] at h ⊢
        cases d with
        | zero => exact absurd h (by simp)
        | succ d => exact ih B d e h
      · simp only [chBalPrefix, if_neg h1, if_neg h2] at h ⊢
        exact ih B d e h

/-- Character-level depth tracking decomposes over an append. -/
theorem chBalPrefix_append_inv :
    ∀ (A B : List Char) (d e : Nat), chBalPrefix (A ++ B) d = some e →
      ∃ e', chBalPrefix A d = some e' ∧ chBalPrefix B e' = some e := by
  intro A
  induction A with
  | nil =>
    intro B d e h
    exact ⟨d, rfl, h⟩
  | cons c A ih =>
    intro B d e h
    by_cases h1 : c = '('
    · subst h1
      simp only [chBalPrefix, if_pos rfl] at h ⊢
      exact ih B (d + 1) e h
    · by_cases h2 : c = ')'
      · subst h2
        simp only [chBalPrefix, if_neg (by decide : ¬ (')' = '(')),
          if_pos rfl] at h ⊢
        cases d with
        | zero => exact absurd h (by simp)
        | succ d => exact ih B d e h
      · simp only [chBalPrefix, if_neg h1, if_neg h2] at h ⊢
        exact ih B d e h

/-- Whitespace does not move the depth. -/
theorem chBalPrefix_ws :
    ∀ w d, (∀ c ∈ w, isWS c = true) → chBalPrefix w d = some d := by
  intro w
  induction w with
  | nil => intro d _; rfl
  | cons c w ih =>
    intro d hws
    obtain ⟨h1, h2, -⟩ := ws_not_delim (hws c (List.mem_cons_self c w))
    simp only [chBalPrefix, if_neg h1, if_neg h2]
    exact ih d fun c hc => hws c (List.mem_cons_of_mem _ hc)

/-- Right trimming does not move the depth. -/
theorem chBalPrefix_rtrimC {l : List Char} {d e : Nat}
    (h : chBalPrefix l d = some e) : chBalPrefix (rtrimC l) d = some e := by
  obtain ⟨w, hw, hws⟩ := rtrimC_decomp l
  rw [hw] at h
  obtain ⟨e', he', hwe⟩ := chBalPrefix_append_inv _ _ _ _ h
  rw [chBalPrefix_ws w e' hws] at hwe
  injection hwe with hwe
  rw [← hwe]
  exact he'

/-- A token stream has exactly one decomposition around the first
closing parenthesis that returns it to depth 0. -/
theorem first_return_unique :
    ∀ (A A' R R' : List Tok) (d : Nat),
      A ++ .rpar :: R = A' ++ .rpar :: R' →
      balPrefix A d = some 0 → balPrefix A' d = some 0 →
      A = A' ∧ R = R' := by
  intro A
  induction A with
  | nil =>
    intro A' R R' d heq hA hA'
    injection hA with hA
    subst hA
    cases A' with
    | nil =>
      refine ⟨rfl, ?_⟩
      rw [List.nil_append, List.nil_append] at heq
      injection heq
    | cons a' A'' =>
      rw [List.nil_append, List.cons_append] at heq
      injection heq with h1 h2
      subst h1
      exact absurd hA' (by simp [balPrefix])
  | cons a A ih =>
    intro A' R R' d heq hA hA'
    cases A' with
    | nil =>
      injection hA' with hA'
      subst hA'
      rw [List.nil_append, List.cons_append] at heq
      injection heq with h1 h2
      subst h1
      exact absurd hA (by simp [balPrefix])
    | cons a' A'' =>
      rw [List.cons_append, List.cons_append] at heq
      injection heq with h1 h2
      subst h1
      cases a with
      | lpar =>
        obtain ⟨hAs, hRs⟩ := ih A'' R R' (d + 1) h2 hA hA'
        exact ⟨by rw [hAs], hRs⟩
      | rpar =>
        cases d with
        | zero => exact absurd hA (by simp [balPrefix])
        | succ d =>
          obtain ⟨hAs, hRs⟩ := ih A'' R R' d h2 hA hA'
          exact ⟨by rw [hAs], hRs⟩
      | comma =>
        obtain ⟨hAs, hRs⟩ := ih A'' R R' d h2 hA hA'
        exact ⟨by rw [hAs], hRs⟩
      | name n =>
        obtain ⟨hAs, hRs⟩ := ih A'' R R' d h2 hA hA'
        exact ⟨by rw [hAs], hRs⟩

/-! ## Step equations of the scanning loop -/

/-- End of input. -/
theorem parseLoopF_nil (f : Nat) (items : List Item) (buf : List Char) (d : Int) :
    parseLoopF (f + 1) [] items buf d =
      .ok (if (trimC buf).isEmpty then items
        else items ++ [.str (String.mk (trimC buf))]) := rfl

/-- A name character is buffered. -/
theorem parseLoopF_step_other {c : Char} (f : Nat) (cs : List Char)
    (items : List Item) (buf : List Char) (d : Int)
    (h1 : ¬ c = '(') (h2 : ¬ c = ')') (h3 : ¬ (c = ',' ∧ d = 0)) :
    parseLoopF (f + 1) (c :: cs) items buf d =
      parseLoopF f cs items (buf ++ [c]) d := by
  simp [parseLoopF, h1, h2, h3]

/-- A `(` at depth 0 after a name opens that name's group. -/
theorem parseLoopF_step_lpar_push (f : Nat) (cs : List Char)
    (items : List Item) (buf : List Char) (h : ¬ (trimC buf).isEmpty = true) :
    parseLoopF (f + 1) ('(' :: cs) items buf 0 =
      parseLoopF f cs (items ++ [.obj [(String.mk (trimC buf), [])]]) ['('] 1 := by
  simp [parseLoopF, h]

/-- Any other `(` is buffered after a trim. -/
theorem parseLoopF_step_lpar_nopush (f : Nat) (cs : List Char)
    (items : List Item) (buf : List Char) (d : Int)
    (h : ¬ (d = 0 ∧ ¬ (trimC buf).isEmpty = true)) :
    parseLoopF (f + 1) ('(' :: cs) items buf d =
      parseLoopF f cs items (trimC buf ++ ['(']) (d + 1) := by
  simp [parseLoopF, h]
  intro h0 hne
  exact absurd ⟨h0, by simpa using hne⟩ h

/-- A `)` that does not return the depth to 0 is buffered. -/
theorem parseLoopF_step_rpar_noclose (f : Nat) (cs : List Char)
    (items : List Item) (buf : List Char) (d : Int) (h : ¬ d - 1 = 0) :
    parseLoopF (f + 1) (')' :: cs) items buf d =
      parseLoopF f cs items (buf ++ [')']) (d - 1) := by
  simp [parseLoopF, h]

/-- A `)` from depth 1 closes the group: the interior is re-parsed and the
children attached. -/
theorem parseLoopF_step_close (f : Nat) (cs : List Char)
    (items : List Item) (raw : List Char) :
    parseLoopF (f + 1) (')' :: cs) items ('(' :: raw) 1 =
      match parseLoopF f raw [] [] 0 with
      | .error e => .error e
      | .ok children =>
        match attachChildren items children with
        | .error e => .error e
        | .ok items' => parseLoopF f cs items' [] 0 := by
  have hb : trimC ('(' :: (raw ++ [')'])) = '(' :: (raw ++ [')']) := trimC_group raw
  have hdrop : ('(' :: (raw ++ [')'])).tail.dropLast = raw := List.dropLast_concat
  simp [parseLoopF, hb, hdrop]

/-- A comma at depth 0 flushes the buffer as a leaf. -/
theorem parseLoopF_step_comma (f : Nat) (cs : List Char)
    (items : List Item) (buf : List Char) :
    parseLoopF (f + 1) (',' :: cs) items buf 0 =
      parseLoopF f cs (if (trimC buf).isEmpty then items
        else items ++ [.str (String.mk (trimC buf))]) [] 0 := by
  simp [parseLoopF]

/-! ## Fuel accounting -/

/-- The fuel bound in closed form. -/
theorem parseFuel_def (cs buf : List Char) :
    parseFuel cs buf = (cs.length + buf.length + 2) * (cs.length + buf.length + 2)
      + cs.length := rfl

/-- Fuel is positive. -/
theorem parseFuel_pos (cs buf : List Char) : 1 ≤ parseFuel cs buf := by
  rw [parseFuel_def]
  have h : 2 ≤ cs.length + buf.length + 2 := by omega
  have h2 := Nat.mul_le_mul h h
  linarith

/-- Buffering one character costs one fuel. -/
theorem parseFuel_tail_append (c : Char) (cs buf : List Char) :
    parseFuel cs (buf ++ [c]) + 1 ≤ parseFuel (c :: cs) buf := by
  have h1 : (buf ++ [c]).length = buf.length + 1 := by simp
  have h2 : (c :: cs).length = cs.length + 1 := by simp
  rw [parseFuel_def, parseFuel_def, h1, h2]
  have h3 : cs.length + (buf.length + 1) + 2 = cs.length + 1 + buf.length + 2 := by
    omega
  rw [h3]
  omega

/-- Opening a fresh group with a pushed placeholder costs one fuel. -/
theorem parseFuel_tail_lpar_push (cs buf : List Char) :
    parseFuel cs ['('] + 1 ≤ parseFuel ('(' :: cs) buf := by
  have h1 : (['('] : List Char).length = 1 := rfl
  have h2 : ('(' :: cs).length = cs.length + 1 := by simp
  rw [parseFuel_def, parseFuel_def, h1, h2]
  have h3 : cs.length + 1 + 2 ≤ cs.length + 1 + buf.length + 2 := by omega
  have h4 := Nat.mul_le_mul h3 h3
  linarith

/-- Buffering a `(` after a trim costs one fuel. -/
theorem parseFuel_tail_lpar (cs buf : List Char) :
    parseFuel cs (trimC buf ++ ['(']) + 1 ≤ parseFuel ('(' :: cs) buf := by
  have h1 : (trimC buf ++ ['(']).length = (trimC buf).length + 1 := by simp
  have h2 : ('(' :: cs).length = cs.length + 1 := by simp
  rw [parseFuel_def, parseFuel_def, h1, h2]
  have ht := trimC_length_le buf
  have h3 : cs.length + ((trimC buf).length + 1) + 2 ≤
      cs.length + 1 + buf.length + 2 := by omega
  have h4 := Nat.mul_le_mul h3 h3
  linarith

/-- Clearing the buffer costs one fuel. -/
theorem parseFuel_tail_empty (c : Char) (cs buf : List Char) :
    parseFuel cs [] + 1 ≤ parseFuel (c :: cs) buf := by
  have h1 : ([] : List Char).length = 0 := rfl
  have h2 : (c :: cs).length = cs.length + 1 := by simp
  rw [parseFuel_def, parseFuel_def, h1, h2]
  have h3 : cs.length + 0 + 2 ≤ cs.length + 1 + buf.length + 2 := by omega
  have h4 := Nat.mul_le_mul h3 h3
  linarith

/-- The re-parse of a closed group's interior fits in the remaining
fuel. -/
theorem parseFuel_inner (cs raw : List Char) :
    parseFuel raw [] + 1 ≤ parseFuel (')' :: cs) ('(' :: raw) := by
  have h1 : ([] : List Char).length = 0 := rfl
  have h2 : (')' :: cs).length = cs.length + 1 := by simp
  have h3 : ('(' :: raw).length = raw.length + 1 := by simp
  rw [parseFuel_def, parseFuel_def, h1, h2, h3]
  have e1 : raw.length + 0 + 2 = raw.length + 2 := by omega
  rw [e1]
  have h4 : raw.length + 4 ≤ cs.length + 1 + (raw.length + 1) + 2 := by omega
  have h5 := Nat.mul_le_mul h4 h4
  have h6 : (raw.length + 2) * (raw.length + 2) + (4 * raw.length + 12) =
      (raw.length + 4) * (raw.length + 4) := by ring
  linarith

/-! ## Aligning two whitespace-variant scans -/

/-- An opening parenthesis token is not a name. -/
theorem lpar_nonname : ∀ n, Tok.lpar ≠ Tok.name n := fun _ h => nomatch h

/-- A closing parenthesis token is not a name. -/
theorem rpar_nonname : ∀ n, Tok.rpar ≠ Tok.name n := fun _ h => nomatch h

/-- A comma token is not a name. -/
theorem comma_nonname : ∀ n, Tok.comma ≠ Tok.name n := fun _ h => nomatch h

/-- Equal flushes mean equal trimmed names. -/
theorem flushTok_inj {b b' : List Char} (h : flushTok b = flushTok b') :
    trimC b = trimC b' := by
  rcases flushTok_cases b with ⟨hb, h1⟩ | ⟨hb, h1⟩ <;>
    rcases flushTok_cases b' with ⟨hb', h2⟩ | ⟨hb', h2⟩ <;>
      rw [h1, h2] at h
  · rw [hb, hb']
  · simp at h
  · simp at h
  · injection h with h _
    injection h

/-- A stream that ends after its flush cannot also continue with a
delimiter token. -/
theorem flushTok_ne_append_tok (b b' : List Char) (t : Tok) (T : List Tok)
    (ht : ∀ n, t ≠ .name n) : flushTok b ≠ flushTok b' ++ t :: T := by
  rcases flushTok_cases b with ⟨-, h1⟩ | ⟨-, h1⟩ <;>
    rcases flushTok_cases b' with ⟨-, h2⟩ | ⟨-, h2⟩ <;> rw [h1, h2]
  · simp
  · simp
  · intro heq
    rw [List.nil_append] at heq
    injection heq with he _
    exact ht _ he.symm
  · simp

/-- Matching two streams that continue with delimiter tokens: the
flushes, the delimiters and the remainders agree. -/
theorem flush_append_tok_inj {b b' : List Char} {t t' : Tok} {T T' : List Tok}
    (ht : ∀ n, t ≠ .name n) (ht' : ∀ n, t' ≠ .name n)
    (heq : flushTok b ++ t :: T = flushTok b' ++ t' :: T') :
    flushTok b = flushTok b' ∧ t = t' ∧ T = T' := by
  rcases flushTok_cases b with ⟨-, h1⟩ | ⟨-, h1⟩ <;>
    rcases flushTok_cases b' with ⟨-, h2⟩ | ⟨-, h2⟩ <;> rw [h1, h2] at heq ⊢
  · rw [List.nil_append, List.nil_append] at heq
    injection heq with e1 e2
    exact ⟨rfl, e1, e2⟩
  · rw [List.nil_append, List.singleton_append] at heq
    injection heq with e1 _
    exact absurd e1 (ht _)
  · rw [List.singleton_append, List.nil_append] at heq
    injection heq with e1 _
    exact absurd e1.symm (ht' _)
  · rw [List.singleton_append, List.singleton_append] at heq
    injection heq with e1 e2
    injection e2 with e2 e3
    rw [e1]
    exact ⟨rfl, e2, e3⟩

/-- A `)` heading the remaining input at depth 0 contradicts balance. -/
theorem rpar_head_bal_contra (cs buf : List Char)
    (hbal : balAux (tokensAux (')' :: cs) buf) 0 = true) : False := by
  rw [tokensAux_rpar, balAux_flush] at hbal
  simp [balAux] at hbal

/-- A group whose interior never closes contradicts balance. -/
theorem unclosed_bal_contra (raw : List Char) (e : Nat)
    (hbp : chBalPrefix raw 0 = some e)
    (hbal : balAux (tokensAux raw []) 1 = true) : False := by
  have h2 : balPrefix (tokensAux raw []) 0 = some e := by
    rw [balPrefix_tokensAux]; exact hbp
  have h3 := balPrefix_mono (tokensAux raw []) 0 e 1 h2
  have h4 := (balAux_iff_balPrefix (tokensAux raw []) 1).mp hbal
  rw [show (0 + 1 : Nat) = 1 from rfl] at h3
  rw [h3] at h4
  injection h4 with h4
  omega

/-- Both scans close their group at the same token: the interiors and
the remainders tokenize identically. -/
theorem close_align (raw raw' cs cs' : List Char)
    (htok : tokensAux (raw ++ ')' :: cs) [] = tokensAux (raw' ++ ')' :: cs') [])
    (hbp : chBalPrefix raw 0 = some 0) (hbp' : chBalPrefix raw' 0 = some 0) :
    tokensAux raw [] = tokensAux raw' [] ∧ tokensAux cs [] = tokensAux cs' [] := by
  rw [tokensAux_split_rpar, tokensAux_split_rpar] at htok
  exact first_return_unique _ _ _ _ 0 htok
    (by rw [balPrefix_tokensAux]; exact hbp)
    (by rw [balPrefix_tokensAux]; exact hbp')

/-- A closed group's interior is balanced. -/
theorem inner_bal (raw : List Char) (hbp : chBalPrefix raw 0 = some 0) :
    balAux (tokensAux raw []) 0 = true := by
  rw [balAux_iff_balPrefix, balPrefix_tokensAux]
  exact hbp

/-- After a close, the remaining input is balanced at depth 0. -/
theorem close_cont_bal (raw cs : List Char)
    (hbal : balAux (tokensAux (raw ++ ')' :: cs) []) 1 = true)
    (hbp : chBalPrefix raw 0 = some 0) :
    balAux (tokensAux cs []) 0 = true := by
  rw [tokensAux_split_rpar] at hbal
  have h2 : balPrefix (tokensAux raw []) 1 = some 1 := by
    have h0 : balPrefix (tokensAux raw []) 0 = some 0 := by
      rw [balPrefix_tokensAux]; exact hbp
    have := balPrefix_mono (tokensAux raw []) 0 0 1 h0
    simpa using this
  rw [balAux_append_of_balPrefix _ _ 1 1 h2] at hbal
  exact hbal

/-- Appending a single character associates with the remaining text. -/
theorem append_singleton_assoc (A : List Char) (x : Char) (B : List Char) :
    (A ++ [x]) ++ B = A ++ (x :: B) := by
  rw [List.append_assoc]
  rfl

/-- Trimming before a buffered `(` leaves the token stream of the
pending group unchanged. -/
theorem lpar_step_stream (raw X : List Char) :
    tokensAux ((rtrimC raw ++ ['(']) ++ X) [] = tokensAux (raw ++ '(' :: X) [] := by
  obtain ⟨w, hw, hws⟩ := rtrimC_decomp raw
  rw [append_singleton_assoc]
  conv_rhs => rw [hw]
  rw [List.append_assoc]
  exact (tokensAux_ws_mid (rtrimC raw) [] w X hws).symm

/-- Depth tracking over a buffered `(`. -/
theorem lpar_step_chbal {raw : List Char} {e : Nat}
    (hbp : chBalPrefix raw 0 = some e) :
    chBalPrefix (rtrimC raw ++ ['(']) 0 = some (e + 1) := by
  rw [chBalPrefix_append_some _ _ 0 e (chBalPrefix_rtrimC hbp)]
  simp [chBalPrefix]

/-- Depth tracking over a buffered non-closing `)`. -/
theorem rpar_step_chbal {raw : List Char} {e : Nat}
    (hbp : chBalPrefix raw 0 = some (e + 1)) :
    chBalPrefix (raw ++ [')']) 0 = some e := by
  rw [chBalPrefix_append_some _ _ 0 (e + 1) hbp]
  simp [chBalPrefix]

/-- Depth tracking over a buffered plain character. -/
theorem other_step_chbal {c : Char} {raw : List Char} {e : Nat}
    (h1 : ¬ c = '(') (h2 : ¬ c = ')')
    (hbp : chBalPrefix raw 0 = some e) :
    chBalPrefix (raw ++ [c]) 0 = some e := by
  rw [chBalPrefix_append_some _ _ 0 e hbp]
  simp [chBalPrefix, h1, h2]

/-- Two scans of whitespace-variant texts stay aligned: if the remaining
text (with each side's pending group interior) tokenizes identically and
the stream ahead is balanced, then — given sufficient fuel on both
sides — the scans produce the same result on the same `items`. -/
theorem parseLoopF_sim :
    ∀ N f g cs buf cs' buf' items d d',
      f + g ≤ N →
      parseFuel cs buf ≤ f → parseFuel cs' buf' ≤ g →
      ((d = 0 ∧ d' = 0 ∧ tokensAux cs buf = tokensAux cs' buf' ∧
          balAux (tokensAux cs buf) 0 = true) ∨
        (∃ e e' : Nat, d = (e : Int) + 1 ∧ d' = (e' : Int) + 1 ∧
          ∃ raw raw', buf = '(' :: raw ∧ buf' = '(' :: raw' ∧
            tokensAux (raw ++ cs) [] = tokensAux (raw' ++ cs') [] ∧
            balAux (tokensAux (raw ++ cs) []) 1 = true ∧
            chBalPrefix raw 0 = some e ∧ chBalPrefix raw' 0 = some e')) →
      parseLoopF f cs items buf d = parseLoopF g cs' items buf' d' := by
  intro N
  induction N with
  | zero =>
    intro f g cs buf cs' buf' items d d' hN hf hg _
    have := parseFuel_pos cs buf
    omega
  | succ N ih =>
    intro f g cs buf cs' buf' items d d' hN hf hg hinv
    obtain ⟨f₂, rfl⟩ : ∃ f₂, f = f₂ + 1 := by
      have := parseFuel_pos cs buf
      exact ⟨f - 1, by omega⟩
    obtain ⟨g₂, rfl⟩ : ∃ g₂, g = g₂ + 1 := by
      have := parseFuel_pos cs' buf'
      exact ⟨g - 1, by omega⟩
    rcases hinv with ⟨rfl, rfl, htok, hbal⟩ |
      ⟨e, e', rfl, rfl, raw, raw', rfl, rfl, htok, hbal, hbp, hbp'⟩
    · -- both scans at depth 0
      cases cs with
      | nil =>
        cases cs' with
        | nil =>
          rw [parseLoopF_nil, parseLoopF_nil, flushTok_inj htok]
        | cons c' cs₂' =>
          by_cases h1' : c' = '('
          · subst h1'
            exfalso
            rw [tokensAux_lpar] at htok
            exact flushTok_ne_append_tok buf buf' _ _ lpar_nonname htok
          · by_cases h2' : c' = ')'
            · subst h2'
              exfalso
              rw [htok] at hbal
              exact rpar_head_bal_contra _ _ hbal
            · by_cases h3' : c' = ','
              · subst h3'
                exfalso
                rw [tokensAux_comma] at htok
                exact flushTok_ne_append_tok buf buf' _ _ comma_nonname htok
              · rw [parseLoopF_step_other g₂ _ _ _ _ h1' h2' fun hc => h3' hc.1]
                refine ih (f₂ + 1) g₂ _ _ _ _ _ _ _ (by omega) hf ?_
                  (Or.inl ⟨rfl, rfl, ?_, hbal⟩)
                · have := parseFuel_tail_append c' cs₂' buf'
                  omega
                · rw [htok, tokensAux_other _ _ h1' h2' h3']
      | cons c cs₂ =>
        by_cases h1 : c = '('
        · subst h1
          cases cs' with
          | nil =>
            exfalso
            rw [tokensAux_lpar] at htok
            exact flushTok_ne_append_tok buf' buf _ _ lpar_nonname htok.symm
          | cons c' cs₂' =>
            by_cases h1' : c' = '('
            · -- both scans open a group
              subst h1'
              rw [tokensAux_lpar, tokensAux_lpar] at htok
              obtain ⟨hflush, -, hrest⟩ :=
                flush_append_tok_inj lpar_nonname lpar_nonname htok
              have htrim : trimC buf = trimC buf' := flushTok_inj hflush
              have hbal1 : balAux (tokensAux cs₂ []) 1 = true := by
                rw [tokensAux_lpar, balAux_flush] at hbal
                exact hbal
              by_cases hpush : (trimC buf).isEmpty = true
              · have hpush' : (trimC buf').isEmpty = true := by
                  rw [← htrim]
                  exact hpush
                rw [parseLoopF_step_lpar_nopush f₂ _ _ _ _ (by simp [hpush]),
                  parseLoopF_step_lpar_nopush g₂ _ _ _ _ (by simp [hpush'])]
                have hbe : trimC buf = [] := List.isEmpty_iff.mp hpush
                have hbe' : trimC buf' = [] := List.isEmpty_iff.mp hpush'
                rw [hbe, hbe']
                simp only [List.nil_append]
                refine ih f₂ g₂ _ _ _ _ _ _ _ (by omega) ?_ ?_
                  (Or.inr ⟨0, 0, by norm_num, by norm_num, [], [], rfl, rfl,
                    hrest, hbal1, rfl, rfl⟩)
                · have := parseFuel_tail_lpar cs₂ buf
                  rw [hbe, List.nil_append] at this
                  omega
                · have := parseFuel_tail_lpar cs₂' buf'
                  rw [hbe', List.nil_append] at this
                  omega
              · have hpush' : ¬ (trimC buf').isEmpty = true := by
                  rw [← htrim]
                  exact hpush
                rw [parseLoopF_step_lpar_push f₂ _ _ _ hpush,
                  parseLoopF_step_lpar_push g₂ _ _ _ hpush', htrim]
                refine ih f₂ g₂ _ _ _ _ _ _ _ (by omega) ?_ ?_
                  (Or.inr ⟨0, 0, by norm_num, by norm_num, [], [], rfl, rfl,
                    hrest, hbal1, rfl, rfl⟩)
                · have := parseFuel_tail_lpar_push cs₂ buf
                  omega
                · have := parseFuel_tail_lpar_push cs₂' buf'
                  omega
            · by_cases h2' : c' = ')'
              · subst h2'
                exfalso
                rw [htok] at hbal
                exact rpar_head_bal_contra _ _ hbal
              · by_cases h3' : c' = ','
                · subst h3'
                  exfalso
                  rw [tokensAux_lpar, tokensAux_comma] at htok
                  obtain ⟨-, hlc, -⟩ :=
                    flush_append_tok_inj lpar_nonname comma_nonname htok
                  exact nomatch hlc
                · rw [parseLoopF_step_other g₂ _ _ _ _ h1' h2' fun hc => h3' hc.1]
                  refine ih (f₂ + 1) g₂ _ _ _ _ _ _ _ (by omega) hf ?_
                    (Or.inl ⟨rfl, rfl, ?_, hbal⟩)
                  · have := parseFuel_tail_append c' cs₂' buf'
                    omega
                  · rw [htok, tokensAux_other _ _ h1' h2' h3']
        · by_cases h2 : c = ')'
          · subst h2
            exfalso
            exact rpar_head_bal_contra _ _ hbal
          · by_cases h3 : c = ','
            · subst h3
              cases cs' with
              | nil =>
                exfalso
                rw [tokensAux_comma] at htok
                exact flushTok_ne_append_tok buf' buf _ _ comma_nonname htok.symm
              | cons c' cs₂' =>
                by_cases h1' : c' = '('
                · subst h1'
                  exfalso
                  rw [tokensAux_comma, tokensAux_lpar] at htok
                  obtain ⟨-, hlc, -⟩ :=
                    flush_append_tok_inj comma_nonname lpar_nonname htok
                  exact nomatch hlc
                · by_cases h2' : c' = ')'
                  · subst h2'
                    exfalso
                    rw [htok] at hbal
                    exact rpar_head_bal_contra _ _ hbal
                  · by_cases h3' : c' = ','
                    · -- both scans flush a sibling
                      subst h3'
                      rw [tokensAux_comma, tokensAux_comma] at htok
                      obtain ⟨hflush, -, hrest⟩ :=
                        flush_append_tok_inj comma_nonname comma_nonname htok
                      have htrim : trimC buf = trimC buf' := flushTok_inj hflush
                      have hbal0 : balAux (tokensAux cs₂ []) 0 = true := by
                        rw [tokensAux_comma, balAux_flush] at hbal
                        exact hbal
                      rw [parseLoopF_step_comma, parseLoopF_step_comma, htrim]
                      refine ih f₂ g₂ _ _ _ _ _ _ _ (by omega) ?_ ?_
                        (Or.inl ⟨rfl, rfl, hrest, hbal0⟩)
                      · have := parseFuel_tail_empty ',' cs₂ buf
                        omega
                      · have := parseFuel_tail_empty ',' cs₂' buf'
                        omega
                    · rw [parseLoopF_step_other g₂ _ _ _ _ h1' h2'
                        fun hc => h3' hc.1]
                      refine ih (f₂ + 1) g₂ _ _ _ _ _ _ _ (by omega) hf ?_
                        (Or.inl ⟨rfl, rfl, ?_, hbal⟩)
                      · have := parseFuel_tail_append c' cs₂' buf'
                        omega
                      · rw [htok, tokensAux_other _ _ h1' h2' h3']
            · rw [parseLoopF_step_other f₂ _ _ _ _ h1 h2 fun hc => h3 hc.1]
              refine ih f₂ (g₂ + 1) _ _ _ _ _ _ _ (by omega) ?_ hg
                (Or.inl ⟨rfl, rfl, ?_, ?_⟩)
              · have := parseFuel_tail_append c cs₂ buf
                omega
              · rw [← tokensAux_other _ _ h1 h2 h3]
                exact htok
              · rw [← tokensAux_other _ _ h1 h2 h3]
                exact hbal
    · -- both scans inside a group
      cases cs with
      | nil =>
        exfalso
        rw [List.append_nil] at hbal
        exact unclosed_bal_contra raw e hbp hbal
      | cons c cs₂ =>
        by_cases h1 : c = '('
        · -- the left scan buffers a deeper `(`
          subst h1
          rw [parseLoopF_step_lpar_nopush f₂ _ _ _ _
            fun hc => absurd hc.1 (by omega), trimC_lparen_cons]
          refine ih f₂ (g₂ + 1) _ _ _ _ _ _ _ (by omega) ?_ hg
            (Or.inr ⟨e + 1, e', by push_cast; ring, rfl,
              rtrimC raw ++ ['('], raw', rfl, rfl, ?_, ?_,
              lpar_step_chbal hbp, hbp'⟩)
          · have := parseFuel_tail_lpar cs₂ ('(' :: raw)
            rw [trimC_lparen_cons] at this
            omega
          · rw [lpar_step_stream raw cs₂]
            exact htok
          · rw [lpar_step_stream raw cs₂]
            exact hbal
        · by_cases h2 : c = ')'
          · subst h2
            by_cases he : e = 0
            · subst he
              -- the left scan is at its closing `)`
              cases cs' with
              | nil =>
                exfalso
                rw [List.append_nil] at htok
                rw [htok] at hbal
                exact unclosed_bal_contra raw' e' hbp' hbal
              | cons c' cs₂' =>
                by_cases h1' : c' = '('
                · -- the right scan buffers a deeper `(`
                  subst h1'
                  rw [parseLoopF_step_lpar_nopush g₂ _ _ _ _
                    fun hc => absurd hc.1 (by omega), trimC_lparen_cons]
                  refine ih (f₂ + 1) g₂ _ _ _ _ _ _ _ (by omega) hf ?_
                    (Or.inr ⟨0, e' + 1, rfl, by push_cast; ring, raw,
                      rtrimC raw' ++ ['('], rfl, rfl, ?_, hbal,
                      hbp, lpar_step_chbal hbp'⟩)
                  · have := parseFuel_tail_lpar cs₂' ('(' :: raw')
                    rw [trimC_lparen_cons] at this
                    omega
                  · rw [lpar_step_stream raw' cs₂']
                    exact htok
                · by_cases h2' : c' = ')'
                  · subst h2'
                    by_cases he' : e' = 0
                    · -- both scans close their group now
                      subst he'
                      obtain ⟨hraw, hrest⟩ :=
                        close_align raw raw' cs₂ cs₂' htok hbp hbp'
                      have hd1 : ((0 : Nat) : Int) + 1 = 1 := by norm_num
                      rw [hd1, parseLoopF_step_close f₂ cs₂ items raw,
                        parseLoopF_step_close g₂ cs₂' items raw']
                      have hchild :
                          parseLoopF f₂ raw [] [] 0 = parseLoopF g₂ raw' [] [] 0 := by
                        refine ih f₂ g₂ _ _ _ _ _ _ _ (by omega) ?_ ?_
                          (Or.inl ⟨rfl, rfl, hraw, inner_bal raw hbp⟩)
                        · have := parseFuel_inner cs₂ raw
                          omega
                        · have := parseFuel_inner cs₂' raw'
                          omega
                      rw [hchild]
                      cases hres : parseLoopF g₂ raw' [] [] 0 with
                      | error err => rfl
                      | ok children =>
                        show (match attachChildren items children with
                            | Except.error err => Except.error err
                            | Except.ok items₂ => parseLoopF f₂ cs₂ items₂ [] 0) =
                          (match attachChildren items children with
                            | Except.error err => Except.error err
                            | Except.ok items₂ => parseLoopF g₂ cs₂' items₂ [] 0)
                        cases hatt : attachChildren items children with
                        | error err => rfl
                        | ok items₂ =>
                          refine ih f₂ g₂ _ _ _ _ _ _ _ (by omega) ?_ ?_
                            (Or.inl ⟨rfl, rfl, hrest,
                              close_cont_bal raw cs₂ hbal hbp⟩)
                          · have := parseFuel_tail_empty ')' cs₂ ('(' :: raw)
                            omega
                          · have := parseFuel_tail_empty ')' cs₂' ('(' :: raw')
                            omega
                    · -- the right scan buffers a non-closing `)`
                      obtain ⟨e₀', rfl⟩ : ∃ e₀', e' = e₀' + 1 :=
                        ⟨e' - 1, by omega⟩
                      rw [parseLoopF_step_rpar_noclose g₂ _ _ _ _ (by omega)]
                      refine ih (f₂ + 1) g₂ _ _ _ _ _ _ _ (by omega) hf ?_
                        (Or.inr ⟨0, e₀', rfl, by push_cast; ring, raw,
                          raw' ++ [')'], rfl, rfl, ?_, hbal,
                          hbp, rpar_step_chbal hbp'⟩)
                      · have := parseFuel_tail_append ')' cs₂' ('(' :: raw')
                        omega
                      · rw [append_singleton_assoc raw' ')' cs₂']
                        exact htok
                  · -- the right scan buffers a plain character
                    rw [parseLoopF_step_other g₂ _ _ _ _ h1' h2'
                      fun hc => absurd hc.2 (by omega)]
                    refine ih (f₂ + 1) g₂ _ _ _ _ _ _ _ (by omega) hf ?_
                      (Or.inr ⟨0, e', rfl, rfl, raw, raw' ++ [c'], rfl, rfl, ?_,
                        hbal, hbp, other_step_chbal h1' h2' hbp'⟩)
                    · have := parseFuel_tail_append c' cs₂' ('(' :: raw')
                      omega
                    · rw [append_singleton_assoc raw' c' cs₂']
                      exact htok
            · -- the left scan buffers a non-closing `)`
              obtain ⟨e₀, rfl⟩ : ∃ e₀, e = e₀ + 1 := ⟨e - 1, by omega⟩
              rw [parseLoopF_step_rpar_noclose f₂ _ _ _ _ (by omega)]
              refine ih f₂ (g₂ + 1) _ _ _ _ _ _ _ (by omega) ?_ hg
                (Or.inr ⟨e₀, e', by push_cast; ring, rfl, raw ++ [')'], raw',
                  rfl, rfl, ?_, ?_, rpar_step_chbal hbp, hbp'⟩)
              · have := parseFuel_tail_append ')' cs₂ ('(' :: raw)
                omega
              · rw [append_singleton_assoc raw ')' cs₂]
                exact htok
              · rw [append_singleton_assoc raw ')' cs₂]
                exact hbal
          · -- the left scan buffers a plain character
            rw [parseLoopF_step_other f₂ _ _ _ _ h1 h2
              fun hc => absurd hc.2 (by omega)]
            refine ih f₂ (g₂ + 1) _ _ _ _ _ _ _ (by omega) ?_ hg
              (Or.inr ⟨e, e', rfl, rfl, raw ++ [c], raw', rfl, rfl, ?_, ?_,
                other_step_chbal h1 h2 hbp, hbp'⟩)
            · have := parseFuel_tail_append c cs₂ ('(' :: raw)
              omega
            · rw [append_singleton_assoc raw c cs₂]
              exact htok
            · rw [append_singleton_assoc raw c cs₂]
              exact hbal

/-- **C5** (counterexample): whitespace is not always insignificant.
`"(a"` and `"( a"` differ only in whitespace between the `(` and the
name `a` (their token streams are equal), yet they parse to leaves with
different names — the unmatched `(` leaves the raw buffer, whitespace
included, to be flushed verbatim as a final leaf. -/
theorem whitespace_changes_unbalanced_parse_cex :
    tokens "(a".data = tokens "( a".data ∧
    parseInput "(a" ≠ parseInput "( a" := by
  refine ⟨rfl, ?_⟩
  have h1 : parseInput "(a" = .ok [.str "(a"] := rfl
  have h2 : parseInput "( a" = .ok [.str "( a"] := rfl
  intro h
  rw [h1, h2] at h
  simp only [Except.ok.injEq, List.cons.injEq, Item.str.injEq, and_true] at h
  exact absurd h (by decide)

/-- **C5** (amended): on inputs whose parentheses are balanced (no `)`
at depth 0 and final depth 0), inserting or removing whitespace around
names, commas or parentheses — that is, any change that keeps the token
stream `tokens` equal — does not change the result of `parseInput`.  On
unbalanced inputs the leftover buffer is flushed verbatim and whitespace
does leak into a leaf name (see the counterexample). -/
theorem parse_whitespace_insensitive_balanced :
    ∀ s t : String, balancedToks (tokens s.data) = true →
      tokens s.data = tokens t.data →
      parseInput s = parseInput t := by
  intro s t hbal htok
  unfold parseInput
  exact parseLoopF_sim (parseFuel s.data [] + parseFuel t.data []) _ _ _ _ _ _ _
    _ _ le_rfl le_rfl le_rfl (Or.inl ⟨rfl, rfl, htok, hbal⟩)

/-- **C5** (witness): `"a(b, c)"` and `"a( b,c )"` differ only in
whitespace and parse identically. -/
theorem parse_whitespace_insensitive_balanced_witness :
    balancedToks (tokens "a(b, c)".data) = true ∧
    tokens "a(b, c)".data = tokens "a( b,c )".data ∧
    parseInput "a(b, c)" = parseInput "a( b,c )" :=
  ⟨rfl, rfl, parse_whitespace_insensitive_balanced "a(b, c)" "a( b,c )" rfl rfl⟩

end Puzzle
